import Mathlib

/-!
Shallow embedding of the dice expression library (src/xdh/_dice.py) and proofs
about its specification claims.

Modelling conventions:

* Python numbers (int and float) are modelled as exact rationals, represented by
  the unreduced fraction type `Q` below (numerator and denominator as integers,
  no gcd normalisation, so that all operations are kernel-computable).  All
  integer inputs stay in canonical form `⟨k, 1⟩`.
* `Value` models any Python object that can appear as an operand of the dice
  algebra: the `Rollable` node classes, plain numbers (`Value.lit`) and `None`
  (`Value.pynone`).  Each node variant carries the fields its Python class
  stores, plus the mutable roll cache (`Rollable.__last`) as an `Option Q`.
* Randomness: `random.randrange(1, sides + 1)` is modelled by drawing the head
  of an entropy stream `List Nat` and mapping it into range as
  `1 + head % sides`.  A uniform head modulo `sides` yields the uniform draw of
  the source.
* Convention functions (`convention=` parameters) are compared by object
  identity in the source (they take part in `Die.__hash__`); they are modelled
  as numeric tags, where tag `0` is the library default (`standard_die`, the
  identity, for `Die`; `standard_dice`, the sum, for `Dice`) and any other tag
  is interpreted through an environment `Env`.
* Failures (`ValueError`, `ZeroDivisionError`, `TypeError`, `AttributeError`,
  `IndexError`, `UnboundLocalError`) are modelled with `Except Err`.
* All recursive procedures take an explicit fuel argument and are structurally
  recursive in it, so every definition is executable and kernel-reducible; the
  fuel-exhaustion outcome is the distinguished error `Err.fuelOut`.
* Python iterates `set`/`dict` objects in an unspecified (hash-table) order;
  the embedding fixes the deterministic first-occurrence order, which is the
  determinism the specification itself demands of normalisation.
-/

/-- Exact rational numbers as unreduced fractions.  `⟨n, d⟩` denotes `n / d`.
Integer values are always represented canonically as `⟨k, 1⟩`. -/
structure Q where
  n : Int
  d : Int
  deriving DecidableEq, Repr

/-- Embed an integer as a canonical `Q`. -/
def ofInt (k : Int) : Q := ⟨k, 1⟩

/-- Addition of fractions (no normalisation). -/
def qadd (a b : Q) : Q := ⟨a.n * b.d + b.n * a.d, a.d * b.d⟩

/-- Multiplication of fractions. -/
def qmul (a b : Q) : Q := ⟨a.n * b.n, a.d * b.d⟩

/-- Negation. -/
def qneg (a : Q) : Q := ⟨-a.n, a.d⟩

/-- Exact division of fractions (Python `/` on numbers; callers guard the
zero-divisor case as the source does). -/
def qdiv (a b : Q) : Q := ⟨a.n * b.d, a.d * b.n⟩

/-- Numeric equality of fractions (cross multiplication): Python `==` between
two numbers. -/
def qeq (a b : Q) : Bool := a.n * b.d == b.n * a.d

/-- Numeric test against zero: Python truthiness / `== 0` for a number. -/
def qIsZero (a : Q) : Bool := a.n == 0

/-- Sum of a list of fractions, starting from `0` (Python `sum`). -/
def qsum (l : List Q) : Q := l.foldl qadd (ofInt 0)

/-- Floor of a fraction as an integer (used for Python `%` semantics). -/
def qfloor (a : Q) : Int :=
  if a.d < 0 then Int.fdiv (-a.n) (-a.d) else Int.fdiv a.n a.d

/-- Python modulus on numbers: `a % b = a - b * floor(a / b)` (sign follows the
divisor, as for Python int/float `%`). -/
def qmod (a b : Q) : Q := qadd a (qneg (qmul b (ofInt (qfloor (qdiv a b)))))

/-- Truncation toward zero (Python `int(x)` on a number). -/
def qtrunc (a : Q) : Int :=
  if 0 ≤ a.n * a.d then ((a.n.natAbs / a.d.natAbs : Nat) : Int)
  else -((a.n.natAbs / a.d.natAbs : Nat) : Int)

/-- Numeric strict comparison `a < b` of fractions. -/
def qlt (a b : Q) : Bool :=
  if 0 ≤ a.d * b.d then a.n * b.d < b.n * a.d else b.n * a.d < a.n * b.d

/-- Ten to an integer power, as a fraction. -/
def qpow10 (e : Int) : Q :=
  if 0 ≤ e then ⟨(10 : Int) ^ e.toNat, 1⟩ else ⟨1, (10 : Int) ^ (-e).toNat⟩

/-- Python `round(x, ndigits)`: banker's rounding (round half to even) at the
given decimal position. -/
def qround (x : Q) (ndigits : Int) : Q :=
  let m := qmul x (qpow10 ndigits)
  let f := qfloor m
  let frac := qadd m (qneg (ofInt f))
  let half : Q := ⟨1, 2⟩
  let r :=
    if qlt half frac then f + 1
    else if qlt frac half then f
    else if f % 2 == 0 then f else f + 1
  qdiv (ofInt r) (qpow10 ndigits)

/-- Errors of the embedded program.  `invalidArgument` is Python `ValueError`,
`zeroDivision` is `ZeroDivisionError`; the others correspond to the
`TypeError`, `AttributeError`, `IndexError` and `UnboundLocalError` raised on
the source's broken paths.  `fuelOut` only signals fuel exhaustion of the
embedding. -/
inductive Err where
  | invalidArgument
  | zeroDivision
  | typeError
  | attributeError
  | indexError
  | unboundLocal
  | fuelOut
  deriving DecidableEq, Repr

/-- Objects of the dice algebra: every `Rollable` node class of the source that
the claims mention, plus plain numbers and `None`.

* `die sides conv cache` — class `Die` (field `__sides`, convention tag,
  `Rollable.__last`).
* `dice group conv cache` — class `Dice` (`RollableSequence.__group` of copied
  dice, convention tag, cache).
* `adder group scalar cache` — class `DiceAdder`.
* `multiplier group scalar cache` — class `DiceMultiplier`.
* `trueDivider numerator denominator cache` — class `DiceTrueDivider`; the
  operand slots hold arbitrary Python objects, hence `Value`.
* `modulus numerator denominator cache` — class `DiceModulus`.
* `roundNode element ndigits cache` — class `DiceRound`.
* `lit q` — a plain Python number.
* `pynone` — Python `None`.
-/
inductive Value where
  | die (sides : Nat) (conv : Nat) (cache : Option Q)
  | dice (group : List Value) (conv : Nat) (cache : Option Q)
  | adder (group : List Value) (scalar : Q) (cache : Option Q)
  | multiplier (group : List Value) (scalar : Q) (cache : Option Q)
  | trueDivider (numerator denominator : Value) (cache : Option Q)
  | modulus (numerator denominator : Value) (cache : Option Q)
  | roundNode (element : Value) (ndigits : Int) (cache : Option Q)
  | lit (q : Q)
  | pynone

/-- Python `isinstance(x, Rollable)`. -/
def isRollable : Value → Bool
  | .lit _ => false
  | .pynone => false
  | _ => true

/-- The roll cache (`Rollable.__last`) of a node; numbers and `None` have
none. -/
def getCache : Value → Option Q
  | .die _ _ c => c
  | .dice _ _ c => c
  | .adder _ _ c => c
  | .multiplier _ _ c => c
  | .trueDivider _ _ c => c
  | .modulus _ _ c => c
  | .roundNode _ _ c => c
  | .lit _ => none
  | .pynone => none

/-- Replace the roll cache of a node (no effect on numbers and `None`, which
carry no cache). -/
def setCache : Value → Option Q → Value
  | .die a b _, c => .die a b c
  | .dice g cv _, c => .dice g cv c
  | .adder g sc _, c => .adder g sc c
  | .multiplier g sc _, c => .multiplier g sc c
  | .trueDivider x y _, c => .trueDivider x y c
  | .modulus x y _, c => .modulus x y c
  | .roundNode e nd _, c => .roundNode e nd c
  | .lit q, _ => .lit q
  | .pynone, _ => .pynone

/-- Interpretation environment for user-supplied convention functions: tag `0`
is reserved for the library defaults and other tags are mapped by these
fields. -/
structure Env where
  dieConv : Nat → Q → Q
  seqConv : Nat → List Q → Q

/-- The environment in which only the default conventions occur. -/
def defaultEnv : Env := ⟨fun _ x => x, fun _ xs => qsum xs⟩

/-- Apply a `Die` convention: tag `0` is `standard_die` (the identity). -/
def applyDieConv (env : Env) (tag : Nat) (x : Q) : Q :=
  if tag == 0 then x else env.dieConv tag x

/-- Apply a `Dice` convention: tag `0` is `standard_dice` (the sum). -/
def applySeqConv (env : Env) (tag : Nat) (xs : List Q) : Q :=
  if tag == 0 then qsum xs else env.seqConv tag xs

/-- Roll each element of a list in order with the given one-value roller,
threading entropy; returns the values and the cache-updated nodes. -/
def rollEach (f : Value → List Nat → Except Err (Q × Value × List Nat)) :
    List Value → List Nat → Except Err (List Q × List Value × List Nat)
  | [], s => .ok ([], [], s)
  | v :: t, s => do
    let (r, v2, s1) ← f v s
    let (rs, t2, s2) ← rollEach f t s1
    .ok (r :: rs, v2 :: t2, s2)

/-- Evaluate a divider/modulus operand for `_roll`: a rollable is called; a
number survives the `except TypeError` fallback with its own value; `None`
survives the fallback but has no numeric value (`some`/`none` in the result
distinguishes these, the caller raising `TypeError` on `None`). -/
def rollOperand (recur : Value → List Nat → Except Err (Q × Value × List Nat))
    (v : Value) (s : List Nat) : Except Err (Option Q × Value × List Nat) :=
  match v with
  | .lit q => .ok (some q, v, s)
  | .pynone => .ok (none, v, s)
  | _ => do
    let (r, v2, s2) ← recur v s
    .ok (some r, v2, s2)

/-- One evaluation of `_roll` for each node class, parameterised by the roller
used for children (`item()` calls).  Returns the produced number and the node
with its children's caches updated; the node's own cache field is left `none`
(it is written by `rollValue`, which models `Rollable.__call__`).

Source methods: `Die._roll`, `Dice._roll`, `DiceAdder._roll`,
`DiceMultiplier._roll`, `DiceTrueDivider._roll`, `DiceModulus._roll`,
`DiceRound._roll`. -/
def rollCore (env : Env) (recur : Value → List Nat → Except Err (Q × Value × List Nat)) :
    Value → List Nat → Except Err (Q × Value × List Nat) :=
  fun v s =>
    match v with
    | .die sides conv _ =>
      -- Die._roll: self.convention(random.randrange(1, self.sides + 1))
      if sides == 0 then .error .invalidArgument
      else
        let raw : Q := ofInt (1 + (s.headD 0 % sides : Nat))
        .ok (applyDieConv env conv raw, .die sides conv none, s.tail)
    | .dice g conv _ => do
      -- Dice._roll: self.convention(item() for item in self._group)
      let (rs, g2, s2) ← rollEach recur g s
      .ok (applySeqConv env conv rs, .dice g2 conv none, s2)
    | .adder g sc _ => do
      -- DiceAdder._roll: sum(item() for item in self._group) + self.scalar
      let (rs, g2, s2) ← rollEach recur g s
      .ok (qadd (qsum rs) sc, .adder g2 sc none, s2)
    | .multiplier g sc _ => do
      -- DiceMultiplier._roll: functools.reduce(operator.mul, (item() ...)) * self.scalar;
      -- reduce of an empty generator raises TypeError (an empty group also rolls nothing).
      let (rs, g2, s2) ← rollEach recur g s
      match rs with
      | [] => .error .typeError
      | r0 :: rest => .ok (qmul (rest.foldl qmul r0) sc, .multiplier g2 sc none, s2)
    | .trueDivider nu de _ => do
      -- DiceTrueDivider._roll: call each operand, falling back to the plain
      -- object when it is not callable, then true-divide.
      let (nv, nu2, s1) ← rollOperand recur nu s
      let (dv, de2, s2) ← rollOperand recur de s1
      match nv, dv with
      | some a, some b =>
        if qIsZero b then .error .zeroDivision
        else .ok (qdiv a b, .trueDivider nu2 de2 none, s2)
      | _, _ => .error .typeError
    | .modulus nu de _ => do
      -- DiceModulus._roll: same operand handling, then Python `%`.
      let (nv, nu2, s1) ← rollOperand recur nu s
      let (dv, de2, s2) ← rollOperand recur de s1
      match nv, dv with
      | some a, some b =>
        if qIsZero b then .error .zeroDivision
        else .ok (qmod a b, .modulus nu2 de2 none, s2)
      | _, _ => .error .typeError
    | .roundNode e nd _ => do
      -- DiceRound._roll: round(self._element(), self._ndigits)
      let (r, e2, s2) ← recur e s
      .ok (qround r nd, .roundNode e2 nd none, s2)
    | .lit _ => .error .typeError
    | .pynone => .error .typeError

/-- `Rollable.__call__`: recompute `_roll` and overwrite the cache with the
produced value, unconditionally. -/
def rollValue : Nat → Env → Value → List Nat → Except Err (Q × Value × List Nat)
  | 0 => fun _ _ _ => .error .fuelOut
  | fuel + 1 => fun env v s => do
    let (r, v0, s2) ← rollCore env (rollValue fuel env) v s
    .ok (r, setCache v0 (some r), s2)

/-- `Rollable.last`: return the cached value, or roll (exactly once) when the
cache is empty. -/
def lastValue (fuel : Nat) (env : Env) (v : Value) (s : List Nat) :
    Except Err (Q × Value × List Nat) :=
  match getCache v with
  | some c => .ok (c, v, s)
  | none => rollValue fuel env v s

/-- Python truthiness of an operand as the dividers' `if not denominator` sees
it: a number tests against zero, `None` is falsy, and a `Rollable` inherits
`numbers.Complex.__bool__`, which is `self != 0` and therefore reads
`self.last`, lazily rolling the node. -/
def boolValue (fuel : Nat) (env : Env) (v : Value) (s : List Nat) :
    Except Err (Bool × Value × List Nat) :=
  match v with
  | .lit q => .ok (!(qIsZero q), v, s)
  | .pynone => .ok (false, v, s)
  | _ => do
    let (r, v2, s2) ← lastValue fuel env v s
    .ok (!(qIsZero r), v2, s2)

/-- Python `==` between two `Rollable`s: `a.__eq__(b)` is `a.last == b`, and
comparing that number with `b` reflects into `b.last`; both sides are lazily
rolled, left first. -/
def eqLast (fuel : Nat) (env : Env) (a b : Value) (s : List Nat) :
    Except Err (Bool × Value × Value × List Nat) := do
  let (ra, a2, s1) ← lastValue fuel env a s
  let (rb, b2, s2) ← lastValue fuel env b s1
  .ok (qeq ra rb, a2, b2, s2)

/-- Check that a value is hashable the way the source hashes it.  `Die`,
`Dice`, `DiceAdder`, `DiceMultiplier` and `DiceRound` hash tuples containing
their child objects, so hashing recurses into children; numbers and `None`
hash fine.  `DiceTrueDivider.__hash__` and `DiceModulus.__hash__` call
`hash(type(self), self.numerator, self.denominator)` with three arguments,
which raises `TypeError`. -/
def hashChk : Nat → Value → Except Err Unit
  | 0 => fun _ => .error .fuelOut
  | fuel + 1 => fun v =>
    match v with
    | .die _ _ _ => .ok ()
    | .dice g _ _ => g.foldlM (fun _ x => hashChk fuel x) ()
    | .adder g _ _ => g.foldlM (fun _ x => hashChk fuel x) ()
    | .multiplier g _ _ => g.foldlM (fun _ x => hashChk fuel x) ()
    | .trueDivider _ _ _ => .error .typeError
    | .modulus _ _ _ => .error .typeError
    | .roundNode e _ _ => hashChk fuel e
    | .lit _ => .ok ()
    | .pynone => .ok ()

/-- Structural equality of the hashed shapes of two values: class, scalar
fields compared numerically, convention tags, and children recursively; the
roll caches never enter a `__hash__` and are ignored.  (Hash collisions
between distinct shapes are not modelled.) -/
def sameShapeB : Nat → Value → Value → Bool
  | 0 => fun _ _ => false
  | fuel + 1 => fun a b =>
    match a, b with
    | .die s1 c1 _, .die s2 c2 _ => s1 == s2 && c1 == c2
    | .dice g1 c1 _, .dice g2 c2 _ =>
      c1 == c2 && g1.length == g2.length &&
        (List.zip g1 g2).all (fun p => sameShapeB fuel p.1 p.2)
    | .adder g1 sc1 _, .adder g2 sc2 _ =>
      qeq sc1 sc2 && g1.length == g2.length &&
        (List.zip g1 g2).all (fun p => sameShapeB fuel p.1 p.2)
    | .multiplier g1 sc1 _, .multiplier g2 sc2 _ =>
      qeq sc1 sc2 && g1.length == g2.length &&
        (List.zip g1 g2).all (fun p => sameShapeB fuel p.1 p.2)
    | .roundNode e1 n1 _, .roundNode e2 n2 _ => n1 == n2 && sameShapeB fuel e1 e2
    | .lit q1, .lit q2 => qeq q1 q2
    | .pynone, .pynone => true
    | _, _ => false

/-- Python `hash(a) == hash(b)`: both hashes are computed (raising where the
source's `__hash__` raises), then compared; equal hashes are identified with
equal shapes. -/
def hashEqV (fuel : Nat) (a b : Value) : Except Err Bool := do
  let _ ← hashChk fuel a
  let _ ← hashChk fuel b
  .ok (sameShapeB fuel a b)

/-- Iterating a value with Python `for elem in v`.  Only the
`RollableSequence` classes are iterable; the `collections.abc.Sequence`
mixin drives `__getitem__`, whose body `self._group[index]` evaluates the
lookup but has no `return`, so each position yields `None` and the terminating
`IndexError` ends the loop.  Every other class raises `TypeError`. -/
def iterateSeq : Value → Except Err (List Value)
  | .dice g _ _ => .ok (List.replicate g.length .pynone)
  | .adder g _ _ => .ok (List.replicate g.length .pynone)
  | .multiplier g _ _ => .ok (List.replicate g.length .pynone)
  | _ => .error .typeError

/-- `RollableSequence.__getitem__` (src/xdh/_dice.py:225-226): the body
`self._group[index]` performs the tuple lookup (honouring Python's negative
indices and raising `IndexError` out of range) and then falls off the end of
the function, returning `None`. -/
def getitemSeq (v : Value) (index : Int) : Except Err Value :=
  match v with
  | .dice g _ _ =>
    if -(g.length : Int) ≤ index ∧ index < g.length then .ok .pynone else .error .indexError
  | .adder g _ _ =>
    if -(g.length : Int) ≤ index ∧ index < g.length then .ok .pynone else .error .indexError
  | .multiplier g _ _ =>
    if -(g.length : Int) ≤ index ∧ index < g.length then .ok .pynone else .error .indexError
  | _ => .error .typeError

/-- Every concrete subclass of `RollableSequence` — the classes whose
instances inherit `RollableSequence.__getitem__` and `__len__` — viewed
through the sequence protocol: the stored member tuple
(`RollableSequence.__group`) plus the class's extra state.  `Dice`
(src/xdh/_dice.py:268) carries a convention; the `ScalarRollableSequence`
subclasses `DiceAdder` (line 323), `DiceMultiplier` (line 481),
`DiceBitwiseAnd` (line 948, default scalar `-1`), `DiceBitwiseOr` (line
1105, default scalar `0`) and `DiceBitwiseXOr` (line 1249, default scalar
`0`) carry a scalar.  `DiceBitwiseInvert` and `DiceBitwiseShift` are plain
`Rollable`s, not sequences. -/
inductive SeqNode where
  | diceS (group : List Value) (conv : Nat)
  | adderS (group : List Value) (scalar : Q)
  | multiplierS (group : List Value) (scalar : Q)
  | bitAndS (group : List Value) (scalar : Q)
  | bitOrS (group : List Value) (scalar : Q)
  | bitXorS (group : List Value) (scalar : Q)

/-- The stored member tuple `self._group` of a sequence node, identical for
every subclass (property `_group`, src/xdh/_dice.py:221-223). -/
def seqGroup : SeqNode → List Value
  | .diceS g _ => g
  | .adderS g _ => g
  | .multiplierS g _ => g
  | .bitAndS g _ => g
  | .bitOrS g _ => g
  | .bitXorS g _ => g

/-- Python's sequence index normalisation: a negative index counts from the
end of the tuple. -/
def pyIndex (len : Nat) (index : Int) : Int :=
  if index < 0 then index + len else index

/-- Python tuple indexing `t[index]`: negative indices count from the end,
and an index out of range (after normalisation) raises `IndexError`. -/
def tupleGet (g : List Value) (index : Int) : Except Err Value :=
  if h : 0 ≤ pyIndex g.length index ∧ pyIndex g.length index < (g.length : Int) then
    .ok (g.get ⟨(pyIndex g.length index).toNat, by omega⟩)
  else .error .indexError

/-- `RollableSequence.__getitem__` (src/xdh/_dice.py:225-226) on any subclass
instance: the body `self._group[index]` evaluates the tuple lookup — raising
`IndexError` out of range — and then falls off the end of the function
without a `return`, so the looked-up child is discarded and the caller
receives `None`. -/
def getitemRS (node : SeqNode) (index : Int) : Except Err Value := do
  let _ ← tupleGet (seqGroup node) index
  .ok .pynone

/-- The sequence-protocol view of the composite nodes the main embedding
carries (`Dice`, `DiceAdder`, `DiceMultiplier`); other values are not
`RollableSequence` instances. -/
def asSeqNode : Value → Option SeqNode
  | .dice g c _ => some (.diceS g c)
  | .adder g sc _ => some (.adderS g sc)
  | .multiplier g sc _ => some (.multiplierS g sc)
  | _ => none

/-- `Die.__init__` (src/xdh/_dice.py:241-247): `sides = int(sides)`; fewer
than two sides raises `ValueError`; otherwise the die stores its side count
and convention. -/
def dieNew (sides : Q) (conv : Nat) : Except Err Value :=
  let s := qtrunc sides
  if s < 2 then .error .invalidArgument
  else .ok (.die s.toNat conv none)

/-- Constructing `DiceRound(element, ndigits)` (src/xdh/_dice.py:1651-1665).
`__new__` first reads `element.ndigits` when the element is already a
`DiceRound`, but the class only defines `_ndigits`, so that access raises
`AttributeError`.  Otherwise `__new__` succeeds, and Python then calls
`DiceRound.__init__(self, element)`, which accepts no `ndigits`; any call
that passes one (as `Rollable.__round__` always does) raises `TypeError`.
Only a bare `DiceRound(element)` with a non-`DiceRound` element succeeds,
with the default `ndigits = 0`. -/
def roundCall (element : Value) (ndigits : Option Int) : Except Err Value :=
  match element with
  | .roundNode _ _ _ => .error .attributeError
  | _ =>
    match ndigits with
    | some _ => .error .typeError
    | none => .ok (.roundNode element 0 none)

/-- The exact Python class of an operand, as `type(item)` distinguishes the
operands during normalisation. -/
inductive PyTy where
  | dieT
  | diceT
  | adderT
  | multiplierT
  | trueDividerT
  | modulusT
  | roundT
  | numberT
  | noneT
  deriving DecidableEq, Repr

/-- `type(item)` of a value. -/
def tyOf : Value → PyTy
  | .die _ _ _ => .dieT
  | .dice _ _ _ => .diceT
  | .adder _ _ _ => .adderT
  | .multiplier _ _ _ => .multiplierT
  | .trueDivider _ _ _ => .trueDividerT
  | .modulus _ _ _ => .modulusT
  | .roundNode _ _ _ => .roundT
  | .lit _ => .numberT
  | .pynone => .noneT

/-- `issubclass(type_, Rollable)` per class. -/
def isRollableTy : PyTy → Bool
  | .numberT => false
  | .noneT => false
  | _ => true

/-- The distinct operand types in first-occurrence order (the embedding's
deterministic stand-in for iterating the Python set `{type(item) for item in
operands}`). -/
def typesOf (args : List Value) : List PyTy :=
  args.foldl (fun acc a => if acc.contains (tyOf a) then acc else acc ++ [tyOf a]) []

/-- The map from operand type to the operands of exactly that type, in
insertion order (the `mappings` dict of the `__new__` constructors). -/
abbrev Mappings : Type := List (PyTy × List Value)

/-- Build `mappings = {type_: [item ...] for type_ in {type(item) ...}}`. -/
def mappingsOf (args : List Value) : Mappings :=
  (typesOf args).map (fun t => (t, args.filter (fun a => tyOf a == t)))

/-- `mappings.pop(t)`: the bucket for `t` and the mappings without it, or
`none` when `t` is absent. -/
def mpop : Mappings → PyTy → Option (List Value × Mappings)
  | [], _ => none
  | (t2, items) :: rest, t =>
    if t2 == t then some (items, rest)
    else
      match mpop rest t with
      | none => none
      | some (i, m2) => some (i, (t2, items) :: m2)

/-- Extend the bucket of `t` in place if present, otherwise append a new
bucket at the end (Python dict update order). -/
def mextend : Mappings → PyTy → List Value → Mappings
  | [], t, items => [(t, items)]
  | (t2, old) :: rest, t, items =>
    if t2 == t then (t2, old ++ items) :: rest
    else (t2, old) :: mextend rest t items

/-- Distribute freshly flattened operands back into the mappings by exact
type, as the `for type_, items in ...` loop of the flatten step does. -/
def redistribute (m : Mappings) (newItems : List Value) : Mappings :=
  (typesOf newItems).foldl
    (fun acc t => mextend acc t (newItems.filter (fun a => tyOf a == t))) m

/-- Python `sum(items)` over a bucket of a non-`Rollable` type: numbers add
up from `0`; `None` entries raise `TypeError` (`0 + None`).  (Rollable types
never reach this: the constructors only sum the non-`Rollable` buckets.) -/
def sumPyList (items : List Value) : Except Err Q :=
  items.foldlM (fun acc x =>
    match x with
    | .lit q => .ok (qadd acc q)
    | _ => .error .typeError) (ofInt 0)

/-- `functools.reduce(operator.mul, items)` (no initial value) over a bucket
of a non-`Rollable` type: a singleton reduces to its sole element (even
`None`); numbers multiply; any multiplication involving `None` raises
`TypeError`. -/
def reduceMulPy : List Value → Except Err Value
  | [] => .error .typeError
  | x :: rest =>
    rest.foldlM (fun acc y =>
      match acc, y with
      | .lit a, .lit b => .ok (.lit (qmul a b))
      | _, _ => .error .typeError) x

/-- Product of the scalars harvested from flattened `DiceMultiplier` operands
(`functools.reduce(operator.mul, scalars)`; the list is nonempty whenever the
loop runs). -/
def qprodNE : List Q → Q
  | [] => ofInt 1
  | x :: rest => rest.foldl qmul x

/-- The `while DiceMultiplier in mappings` flatten loop of
`DiceMultiplier.__new__` (src/xdh/_dice.py:488-518): pop the multiplier
bucket, splice the popped nodes' groups back into the mappings by type, and
multiply their scalars into the running scalar. -/
def multFlatten : Nat → Mappings → Q → Except Err (Mappings × Q)
  | 0 => fun _ _ => .error .fuelOut
  | fuel + 1 => fun m scalar =>
    match mpop m .multiplierT with
    | none => .ok (m, scalar)
    | some (mults, m2) =>
      let groups := mults.map (fun x =>
        match x with
        | .multiplier g sc _ => (g, sc)
        | _ => (([] : List Value), ofInt 1))
      let items := (groups.map Prod.fst).flatten
      let scalar2 := qmul scalar (qprodNE (groups.map Prod.snd))
      multFlatten fuel (redistribute m2 items) scalar2

/-- `DiceMultiplier.__new__` (src/xdh/_dice.py:482-572): group operands by
type, flatten nested multipliers, fold the non-`Rollable` buckets into the
scalar (a bucket whose reduce yields `None` is discarded by the
`item is not None` filter), and keep the `Rollable` operands in mapping
order.  A single surviving operand with scalar `1` is returned as-is;
otherwise a new multiplier node is built.  The constructor consumes no
randomness. -/
def multLeftoverStep (acc : List Value × Q) (e : PyTy × List Value) :
    Except Err (List Value × Q) :=
  if isRollableTy e.1 then .ok (acc.1 ++ e.2, acc.2)
  else do
    let p ← reduceMulPy e.2
    match p with
    | .lit q => .ok (acc.1, qmul acc.2 q)
    | _ => .ok acc

def multiplierNew (fuel : Nat) (args : List Value) (scalar : Q) : Except Err Value := do
  let (m, scalar) ← multFlatten fuel (mappingsOf args) scalar
  let (merged, scalar) ← m.foldlM multLeftoverStep (([] : List Value), scalar)
  match merged, qeq scalar (ofInt 1) with
  | [x], true => .ok x
  | _, _ => .ok (.multiplier merged scalar none)

/-- Python `a * b` between constructor operands: two numbers multiply
directly; `None` with a number raises `TypeError`; as soon as a `Rollable` is
involved, `Rollable.__mul__`/`__rmul__` construct `DiceMultiplier(a, b)`
(both keep the left-to-right operand order). -/
def pymul (fuel : Nat) (a b : Value) : Except Err Value :=
  match a, b with
  | .lit x, .lit y => .ok (.lit (qmul x y))
  | .lit _, .pynone => .error .typeError
  | .pynone, .lit _ => .error .typeError
  | .pynone, .pynone => .error .typeError
  | _, _ => multiplierNew fuel [a, b] (ofInt 1)

/-- The numerator side of the divider chain unwrapping
(src/xdh/_dice.py:737-743): a `DiceTrueDivider` numerator contributes its two
operands; anything else starts the chain as `numerator / 1`.  Together,
`dividerUnwrapNum`, `dividerCross` and `dividerFinish` make up
`DiceTrueDivider.__new__` (src/xdh/_dice.py:732-774), whose entry point
`trueDividerNew` first tests the denominator's truthiness — rolling it when it
is a `Rollable` — and raises `ZeroDivisionError` on falsy. -/
def dividerUnwrapNum (numerator : Value) : Value × Value :=
  match numerator with
  | .trueDivider nu de _ => (nu, de)
  | _ => (numerator, Value.lit (ofInt 1))

/-- The denominator side of the divider chain unwrapping
(src/xdh/_dice.py:745-750): a `DiceTrueDivider` denominator cross-multiplies
(`new_numerator *= denominator.denominator`,
`new_denominator *= denominator.numerator`); anything else multiplies into the
running denominator. -/
def dividerCross (fuel : Nat) (newNum newDen den : Value) :
    Except Err (Value × Value) :=
  match den with
  | .trueDivider nu de _ => do
    let nn ← pymul fuel newNum de
    let nd ← pymul fuel newDen nu
    pure (nn, nd)
  | _ => do
    let nd ← pymul fuel newDen den
    pure (newNum, nd)

/-- The tail of `DiceTrueDivider.__new__` (src/xdh/_dice.py:755-774): two
`DiceMultiplier` operands take the branch that rebinds them without ever
assigning `ret` (evaluating `numerator.scalar / denominator.scalar` — a
`ZeroDivisionError` when the denominator scalar is zero — and two fresh
multipliers), so `return ret` raises `UnboundLocalError`; a non-`Rollable`
denominator equal to `1` returns the numerator; any other number collapses to
`DiceMultiplier(numerator, scalar=1/denominator)` (`1 / None` is a
`TypeError`); otherwise the two operands are stored in a fresh node. -/
def dividerFinish (fuel : Nat) (newNum newDen : Value) (s : List Nat) :
    Except Err (Value × List Nat) :=
  match newNum, newDen with
  | .multiplier gN sN _, .multiplier gD sD _ =>
    if qIsZero sD then .error .zeroDivision
    else do
      let _ ← multiplierNew fuel gN (qdiv sN sD)
      let _ ← multiplierNew fuel gD (ofInt 1)
      .error .unboundLocal
  | _, _ =>
    match newDen with
    | .lit q =>
      if qeq q (ofInt 1) then .ok (newNum, s)
      else if qIsZero q then .error .zeroDivision
      else do
        let v ← multiplierNew fuel [newNum] (qdiv (ofInt 1) q)
        .ok (v, s)
    | .pynone => .error .typeError
    | _ => .ok (.trueDivider newNum newDen none, s)

def trueDividerNew (fuel : Nat) (env : Env) (numerator denominator : Value)
    (s : List Nat) : Except Err (Value × List Nat) := do
  let (b, denominator, s) ← boolValue fuel env denominator s
  if !b then .error .zeroDivision
  else do
    let (newNum, newDen) := dividerUnwrapNum numerator
    let (newNum, newDen) ← dividerCross fuel newNum newDen denominator
    dividerFinish fuel newNum newDen s

/-- Insert a candidate into the representatives of a Python `set` under
construction: scan the existing members in insertion order; a member with an
equal hash is compared with `==` (which lazily rolls both sides); on a match
the candidate is dropped, otherwise it is appended at the end.  The scanned
members keep the caches the comparisons gave them. -/
def setInsert (fuel : Nat) (env : Env) :
    List Value → Value → List Nat → Except Err (List Value × List Nat)
  | [], cand, s => .ok ([cand], s)
  | r :: rest, cand, s => do
    let hb ← hashEqV fuel r cand
    if hb then do
      let (b, r2, cand2, s) ← eqLast fuel env r cand s
      if b then .ok (r2 :: rest, s)
      else do
        let (rest2, s) ← setInsert fuel env rest cand2 s
        .ok (r2 :: rest2, s)
    else do
      let (rest2, s) ← setInsert fuel env rest cand s
      .ok (r :: rest2, s)

/-- Build a Python `set` from a list, keeping first occurrences in insertion
order (CPython's behaviour for a freshly built small set, with the embedding's
deterministic iteration order). -/
def setBuildStep (fuel : Nat) (env : Env) (acc : List Value × List Nat) (x : Value) :
    Except Err (List Value × List Nat) :=
  setInsert fuel env acc.1 x acc.2

def setBuild (fuel : Nat) (env : Env) (xs : List Value) (s : List Nat) :
    Except Err (List Value × List Nat) :=
  xs.foldlM (setBuildStep fuel env) (([] : List Value), s)

/-- Python `dict.get(key, default)` on a dict with `Value` keys: scan the
entries in insertion order, comparing hash-equal keys with `==` (lazily
rolling); returns the stored count if found, the updated entries, and the key
with any cache the comparisons wrote. -/
def dictGet (fuel : Nat) (env : Env) :
    List (Value × Nat) → Value → List Nat →
    Except Err (Option Nat × List (Value × Nat) × Value × List Nat)
  | [], key, s => .ok (none, [], key, s)
  | (k, cnt) :: rest, key, s => do
    let hb ← hashEqV fuel k key
    if hb then do
      let (b, k2, key2, s) ← eqLast fuel env k key s
      if b then .ok (some cnt, (k2, cnt) :: rest, key2, s)
      else do
        let (res, rest2, key3, s) ← dictGet fuel env rest key2 s
        .ok (res, (k2, cnt) :: rest2, key3, s)
    else do
      let (res, rest2, key2, s) ← dictGet fuel env rest key s
      .ok (res, (k, cnt) :: rest2, key2, s)

/-- Python `dict[key] = v`: replace the count of an `==`-equal entry (keeping
the entry's own key object), otherwise append the new key at the end. -/
def dictSet (fuel : Nat) (env : Env) :
    List (Value × Nat) → Value → Nat → List Nat →
    Except Err (List (Value × Nat) × List Nat)
  | [], key, v, s => .ok ([(key, v)], s)
  | (k, cnt) :: rest, key, v, s => do
    let hb ← hashEqV fuel k key
    if hb then do
      let (b, k2, key2, s) ← eqLast fuel env k key s
      if b then .ok ((k2, v) :: rest, s)
      else do
        let (rest2, s) ← dictSet fuel env rest key2 v s
        .ok ((k2, cnt) :: rest2, s)
    else do
      let (rest2, s) ← dictSet fuel env rest key v s
      .ok ((k, cnt) :: rest2, s)

/-- The `while DiceAdder in mappings` flatten loop of `DiceAdder.__new__`
(src/xdh/_dice.py:329-348): pop the adder bucket, splice the popped nodes'
terms back into the mappings by type, and add their scalars into the running
scalar. -/
def adderFlatten : Nat → Mappings → Q → Except Err (Mappings × Q)
  | 0 => fun _ _ => .error .fuelOut
  | fuel + 1 => fun m scalar =>
    match mpop m .adderT with
    | none => .ok (m, scalar)
    | some (adders, m2) =>
      let groups := adders.map (fun x =>
        match x with
        | .adder g sc _ => (g, sc)
        | _ => (([] : List Value), ofInt 0))
      let items := (groups.map Prod.fst).flatten
      let scalar2 := qadd scalar (qsum (groups.map Prod.snd))
      adderFlatten fuel (redistribute m2 items) scalar2

/-- Requests of the mutually recursive constructor cluster: `DiceAdder.__new__`,
`DiceModulus.__new__`, `Dice.__new__` and the `copy()` methods all construct
through each other, so they are evaluated by one fuelled interpreter. -/
inductive Req where
  | mkAdder (args : List Value) (scalar : Q)
  | mkModulus (numerator denominator : Value)
  | mkDice (num : Int) (rollable : Value) (conv : Nat)
  | mkCopy (v : Value)

def copyOneStep (recur : Req → List Nat → Except Err (Value × List Nat))
    (acc : List Value × List Nat) (x : Value) : Except Err (List Value × List Nat) := do
  let (c, s2) ← recur (.mkCopy x) acc.2
  pure (acc.1 ++ [c], s2)

/-- `x.copy()` guarded by `except AttributeError: x`, as the divider/modulus
`copy` methods do for their operands: numbers and `None` have no `copy` and
are passed through. -/
def copyOperand (recur : Req → List Nat → Except Err (Value × List Nat))
    (x : Value) (s : List Nat) : Except Err (Value × List Nat) :=
  match x with
  | .lit _ => .ok (x, s)
  | .pynone => .ok (x, s)
  | _ => recur (.mkCopy x) s

/-- The `Dice` bucket of `DiceAdder.__new__` (src/xdh/_dice.py:351-362): for
each `Dice` operand, `item.die` memoizes a copy of its first group element;
those dies are collected into a set (insertion interleaved with the copies,
equal-hash members compared by lazily-rolling `==`); each set member is then
mapped to the total `len(item)` over the operands whose memoized die has an
equal hash. -/
def diceBucketStep (fuel : Nat) (env : Env)
    (recur : Req → List Nat → Except Err (Value × List Nat))
    (acc : List (Value × Value) × List Value × List Nat) (it : Value) :
    Except Err (List (Value × Value) × List Value × List Nat) :=
  match it with
  | .dice g _ _ =>
    match g with
    | [] => .error .indexError
    | g0 :: _ => do
      let (d, s2) ← recur (.mkCopy g0) acc.2.2
      let (reps2, s3) ← setInsert fuel env acc.2.1 d s2
      pure (acc.1 ++ [(it, d)], reps2, s3)
  | _ => .error .typeError

def diceCountOne (fuel : Nat) (rep : Value) (k : Nat) (p : Value × Value) :
    Except Err Nat := do
  let hb ← hashEqV fuel p.2 rep
  if hb then
    match p.1 with
    | .dice g _ _ => pure (k + g.length)
    | _ => pure k
  else pure k

def diceCountStep (fuel : Nat) (pairs : List (Value × Value))
    (acc : List (Value × Nat)) (rep : Value) : Except Err (List (Value × Nat)) := do
  let cnt ← pairs.foldlM (diceCountOne fuel rep) 0
  pure (acc ++ [(rep, cnt)])

def diceBucket (fuel : Nat) (env : Env)
    (recur : Req → List Nat → Except Err (Value × List Nat))
    (diceItems : List Value) (s : List Nat) :
    Except Err (List (Value × Nat) × List Nat) := do
  let (pairs, reps, s) ← diceItems.foldlM (diceBucketStep fuel env recur)
    (([] : List (Value × Value)), ([] : List Value), s)
  let items ← reps.foldlM (diceCountStep fuel pairs) ([] : List (Value × Nat))
  .ok (items, s)

/-- The `Die` bucket of `DiceAdder.__new__` (src/xdh/_dice.py:364-378): build
`set(die_items)` (equal-hash members compared by lazily-rolling `==`), count
for each member the operands with an equal hash, and merge the counts into
the `items` dict via `items.get(dtype, 0) + count`. -/
def dieCountOne (fuel : Nat) (rep : Value) (k : Nat) (d : Value) : Except Err Nat := do
  let hb ← hashEqV fuel d rep
  pure (if hb then k + 1 else k)

def dieBucketStep (fuel : Nat) (env : Env) (dieItems : List Value)
    (acc : List (Value × Nat) × List Nat) (rep : Value) :
    Except Err (List (Value × Nat) × List Nat) := do
  let cnt ← dieItems.foldlM (dieCountOne fuel rep) 0
  let (prev, items2, rep2, s2) ← dictGet fuel env acc.1 rep acc.2
  let (items3, s3) ← dictSet fuel env items2 rep2 (prev.getD 0 + cnt) s2
  pure (items3, s3)

def dieBucket (fuel : Nat) (env : Env) (dieItems : List Value)
    (items0 : List (Value × Nat)) (s : List Nat) :
    Except Err (List (Value × Nat) × List Nat) := do
  let (reps, s) ← setBuild fuel env dieItems s
  reps.foldlM (dieBucketStep fuel env dieItems) (items0, s)

/-- The `DiceMultiplier` bucket of `DiceAdder.__new__`
(src/xdh/_dice.py:385-402): for each distinct multiplier scalar `ms`, the
comprehension iterates every group member of every multiplier operand
(`for group in item._group for elem in group`) — iterating the member itself,
which yields `None`s for sequence members and raises `TypeError` otherwise —
keeps the yields of the multipliers whose scalar equals `ms`, feeds them to a
recursive `DiceAdder`, and wraps that in `DiceMultiplier(..., scalar=ms)`. -/
def multMemberStep (ms sc : Q) (acc3 : List Value) (member : Value) :
    Except Err (List Value) := do
  let ys ← iterateSeq member
  pure (acc3 ++ (if qeq sc ms then ys else []))

def multElemsItem (ms : Q) (acc2 : List Value) (it : Value) :
    Except Err (List Value) :=
  match it with
  | .multiplier g sc _ => g.foldlM (multMemberStep ms sc) acc2
  | _ => pure acc2

def multBucketStep (fuel : Nat)
    (recur : Req → List Nat → Except Err (Value × List Nat))
    (multItems : List Value) (acc : List Value × List Nat) (ms : Q) :
    Except Err (List Value × List Nat) := do
  let elems ← multItems.foldlM (multElemsItem ms) ([] : List Value)
  let (inner, s2) ← recur (.mkAdder elems (ofInt 0)) acc.2
  let mval ← multiplierNew fuel [inner] ms
  pure (acc.1 ++ [mval], s2)

def multScalarsOf (multItems : List Value) : List Q :=
  multItems.foldl (fun (acc : List Q) it =>
    match it with
    | .multiplier _ sc _ => if acc.any (fun x => qeq x sc) then acc else acc ++ [sc]
    | _ => acc) []

def multBucket (fuel : Nat) (env : Env)
    (recur : Req → List Nat → Except Err (Value × List Nat))
    (multItems : List Value) (merged0 : List Value) (s : List Nat) :
    Except Err (List Value × List Nat) :=
  let _ := env
  (multScalarsOf multItems).foldlM (multBucketStep fuel recur multItems) (merged0, s)

def mergedEmitStep (recur : Req → List Nat → Except Err (Value × List Nat))
    (acc : List Value × List Nat) (e : Value × Nat) :
    Except Err (List Value × List Nat) :=
  if 1 < e.2 then do
    let (g, s2) ← recur (.mkDice (e.2 : Int) e.1 0) acc.2
    pure (acc.1 ++ [g], s2)
  else pure (acc.1 ++ [e.1], acc.2)

def addLeftoverStep (acc : List Value × Q) (e : PyTy × List Value) :
    Except Err (List Value × Q) :=
  if isRollableTy e.1 then .ok (acc.1 ++ e.2, acc.2)
  else do
    let q ← sumPyList e.2
    .ok (acc.1, qadd acc.2 q)

/-- `DiceAdder.__new__` (src/xdh/_dice.py:324-442): group operands by exact
type; flatten nested adders; collapse the `Dice` and `Die` buckets into one
entry per die shape with summed counts, re-emitted as `Dice(count, die)` (or
the bare die when the count is `1`); rebuild the multiplier bucket grouped by
scalar; pass remaining `Rollable` buckets through and sum the non-`Rollable`
buckets into the scalar; finally, return the sole surviving term when the
scalar is falsy, and a fresh adder node otherwise. -/
def adderDicePhase (fuel : Nat) (env : Env)
    (recur : Req → List Nat → Except Err (Value × List Nat))
    (m : Mappings) (s : List Nat) :
    Except Err (List (Value × Nat) × Mappings × List Nat) :=
  match mpop m .diceT with
  | none => pure (([] : List (Value × Nat)), m, s)
  | some (diceItems, m2) => do
    let (items, s2) ← diceBucket fuel env recur diceItems s
    pure (items, m2, s2)

def adderDiePhase (fuel : Nat) (env : Env) (items : List (Value × Nat))
    (m : Mappings) (s : List Nat) :
    Except Err (List (Value × Nat) × Mappings × List Nat) :=
  match mpop m .dieT with
  | none => pure (items, m, s)
  | some (dieItems, m2) => do
    let (items2, s2) ← dieBucket fuel env dieItems items s
    pure (items2, m2, s2)

def adderMultPhase (fuel : Nat) (env : Env)
    (recur : Req → List Nat → Except Err (Value × List Nat))
    (merged : List Value) (m : Mappings) (s : List Nat) :
    Except Err (List Value × Mappings × List Nat) :=
  match mpop m .multiplierT with
  | none => pure (merged, m, s)
  | some (multItems, m2) => do
    let (merged2, s2) ← multBucket fuel env recur multItems merged s
    pure (merged2, m2, s2)

def adderBody (fuel : Nat) (env : Env)
    (recur : Req → List Nat → Except Err (Value × List Nat))
    (args : List Value) (scalar : Q) (s : List Nat) :
    Except Err (Value × List Nat) := do
  let (m, scalar) ← adderFlatten fuel (mappingsOf args) scalar
  let (items, m, s) ← adderDicePhase fuel env recur m s
  let (items, m, s) ← adderDiePhase fuel env items m s
  let (merged, s) ← items.foldlM (mergedEmitStep recur) (([] : List Value), s)
  let (merged, m, s) ← adderMultPhase fuel env recur merged m s
  let (merged, scalar) ← m.foldlM addLeftoverStep (merged, scalar)
  match merged, qIsZero scalar with
  | [x], true => .ok (x, s)
  | _, _ => .ok (.adder merged scalar none, s)

/-- The die-shrinking special case of `DiceModulus.__new__`
(src/xdh/_dice.py:1736-1738): when the denominator evenly divides the side
count, return `Dice(rolls, Die(denominator)) - 1` (subtraction is
`numbers.Complex.__sub__`, i.e. `self + (-1)`, which constructs
`DiceAdder(self, -1)`); otherwise fall through to a fresh modulus node over
the cross-multiplied operands. -/
def modOpt (fuel : Nat) (env : Env)
    (recur : Req → List Nat → Except Err (Value × List Nat))
    (rolls sides : Nat) (q : Q) (newNum newDen : Value) (s : List Nat) :
    Except Err (Value × List Nat) :=
  if qIsZero (qmod (ofInt sides) q) then do
    let d ← dieNew q 0
    let (grp, s) ← recur (.mkDice (rolls : Int) d 0) s
    recur (.mkAdder [grp, .lit (ofInt (-1))] (ofInt 0)) s
  else
    let _ := env
    .ok (.modulus newNum newDen none, s)

/-- `DiceModulus.__new__` (src/xdh/_dice.py:1705-1744): raise
`ZeroDivisionError` on a falsy denominator (truthiness of a `Rollable` rolls
it); unwrap nested moduli by cross multiplication; when the original
numerator is a `Die`/`Dice` and the original denominator is not `Rollable`,
try the die-shrinking rewrite (reading `numerator.die.sides`, which needs the
first group element's copy to be a `Die`); otherwise store the
cross-multiplied operands in a fresh node. -/
def modUnwrapNum (numerator : Value) : Value × Value :=
  match numerator with
  | .modulus nu de _ => (nu, de)
  | _ => (numerator, Value.lit (ofInt 1))

def modCross (fuel : Nat) (denominator newNum newDen : Value) :
    Except Err (Value × Value) :=
  match denominator with
  | .modulus nu de _ => do
    let nd ← pymul fuel newDen nu
    let nn ← pymul fuel newNum de
    pure (nn, nd)
  | _ => do
    let nd ← pymul fuel newDen denominator
    pure (newNum, nd)

def modFinish (fuel : Nat) (env : Env)
    (recur : Req → List Nat → Except Err (Value × List Nat))
    (numerator denominator newNum newDen : Value) (s : List Nat) :
    Except Err (Value × List Nat) :=
  match numerator, denominator with
  | .dice g _ _, .lit q =>
    match g with
    | [] => .error .indexError
    | g0 :: _ => do
      let (d0, s) ← recur (.mkCopy g0) s
      match d0 with
      | .die sd _ _ => modOpt fuel env recur g.length sd q newNum newDen s
      | _ => .error .attributeError
  | .die sd _ _, .lit q => modOpt fuel env recur 1 sd q newNum newDen s
  | _, _ => .ok (.modulus newNum newDen none, s)

def modBody (fuel : Nat) (env : Env)
    (recur : Req → List Nat → Except Err (Value × List Nat))
    (numerator denominator : Value) (s : List Nat) :
    Except Err (Value × List Nat) := do
  let (b, denominator, s) ← boolValue fuel env denominator s
  if !b then .error .zeroDivision
  else do
    let (newNum, newDen) := modUnwrapNum numerator
    let (newNum, newDen) ← modCross fuel denominator newNum newDen
    modFinish fuel env recur numerator denominator newNum newDen s

def diceCopyStep (recur : Req → List Nat → Except Err (Value × List Nat))
    (rollable : Value) (acc : List Value × List Nat) (_i : Nat) :
    Except Err (List Value × List Nat) :=
  copyOneStep recur acc rollable

/-- `Dice.__new__` (src/xdh/_dice.py:269-285): fewer than one rollable raises
`ValueError`; a `Dice` argument is flattened (`num *= inner.num`,
`rollable = inner.die`); a resulting count of `1` returns `rollable.copy()`;
otherwise the group is populated with `num` fresh copies of the rollable. -/
def diceFlattenArg (recur : Req → List Nat → Except Err (Value × List Nat))
    (num : Int) (rollable : Value) (s : List Nat) :
    Except Err (Int × Value × List Nat) :=
  match rollable with
  | .dice g _ _ =>
    match g with
    | [] => .error .indexError
    | g0 :: _ => do
      let (d, s2) ← recur (.mkCopy g0) s
      pure (num * (g.length : Int), d, s2)
  | _ => pure (num, rollable, s)

def diceFinish (recur : Req → List Nat → Except Err (Value × List Nat))
    (conv : Nat) (num : Int) (rollable : Value) (s : List Nat) :
    Except Err (Value × List Nat) :=
  if num == 1 then recur (.mkCopy rollable) s
  else do
    let (copies, s) ← (List.range num.toNat).foldlM
      (diceCopyStep recur rollable) (([] : List Value), s)
    .ok (.dice copies conv none, s)

def diceBody (fuel : Nat) (env : Env)
    (recur : Req → List Nat → Except Err (Value × List Nat))
    (num : Int) (rollable : Value) (conv : Nat) (s : List Nat) :
    Except Err (Value × List Nat) := do
  let _ := fuel
  let _ := env
  if num < 1 then .error .invalidArgument
  else do
    let (num, rollable, s) ← diceFlattenArg recur num rollable s
    diceFinish recur conv num rollable s

/-- The `copy()` method of each class.  `Die.copy` is `Die(self.sides)` — the
convention is dropped; `Dice.copy` is `Dice(self.num, self.die.copy())`;
`DiceAdder.copy`/`DiceMultiplier.copy` rebuild through their constructors
from member copies; the divider/modulus copies go through their constructors
(whose truthiness test can roll); `DiceRound.copy` calls
`DiceRound(element.copy(), ndigits)`, which `__init__` rejects.  Numbers and
`None` have no `copy`. -/
def copyBody (fuel : Nat) (env : Env)
    (recur : Req → List Nat → Except Err (Value × List Nat))
    (v : Value) (s : List Nat) : Except Err (Value × List Nat) :=
  match v with
  | .die sd _ _ => do
    let d ← dieNew (ofInt sd) 0
    .ok (d, s)
  | .dice g _ _ =>
    match g with
    | [] => .error .indexError
    | g0 :: _ => do
      let (d0, s) ← recur (.mkCopy g0) s
      let (d1, s) ← recur (.mkCopy d0) s
      recur (.mkDice (g.length : Int) d1 0) s
  | .adder g sc _ => do
    let (copies, s) ← g.foldlM (copyOneStep recur) (([] : List Value), s)
    recur (.mkAdder copies sc) s
  | .multiplier g sc _ => do
    let (copies, s) ← g.foldlM (copyOneStep recur) (([] : List Value), s)
    let m ← multiplierNew fuel copies sc
    .ok (m, s)
  | .trueDivider nu de _ => do
    let (n2, s) ← copyOperand recur nu s
    let (d2, s) ← copyOperand recur de s
    trueDividerNew fuel env n2 d2 s
  | .modulus nu de _ => do
    let (n2, s) ← copyOperand recur nu s
    let (d2, s) ← copyOperand recur de s
    recur (.mkModulus n2 d2) s
  | .roundNode e nd _ => do
    let (e2, s) ← recur (.mkCopy e) s
    let r ← roundCall e2 (some nd)
    .ok (r, s)
  | .lit _ => .error .attributeError
  | .pynone => .error .attributeError

/-- One step of the constructor-cluster interpreter. -/
def runReqStep (fuel : Nat) (env : Env)
    (recur : Req → List Nat → Except Err (Value × List Nat)) :
    Req → List Nat → Except Err (Value × List Nat)
  | .mkAdder args scalar, s => adderBody fuel env recur args scalar s
  | .mkModulus nu de, s => modBody fuel env recur nu de s
  | .mkDice n r c, s => diceBody fuel env recur n r c s
  | .mkCopy v, s => copyBody fuel env recur v s

/-- Fuelled interpreter for the mutually recursive constructor cluster. -/
def runReq : Nat → Env → Req → List Nat → Except Err (Value × List Nat)
  | 0 => fun _ _ _ => .error .fuelOut
  | fuel + 1 => fun env => runReqStep fuel env (runReq fuel env)

/-- `DiceAdder(*args, scalar=scalar)`. -/
def adderNew (fuel : Nat) (env : Env) (args : List Value) (scalar : Q)
    (s : List Nat) : Except Err (Value × List Nat) :=
  runReq fuel env (.mkAdder args scalar) s

/-- `DiceModulus(numerator, denominator)`. -/
def modulusNew (fuel : Nat) (env : Env) (numerator denominator : Value)
    (s : List Nat) : Except Err (Value × List Nat) :=
  runReq fuel env (.mkModulus numerator denominator) s

/-- `Dice(num, rollable, convention)`. -/
def diceNew (fuel : Nat) (env : Env) (num : Int) (rollable : Value) (conv : Nat)
    (s : List Nat) : Except Err (Value × List Nat) :=
  runReq fuel env (.mkDice num rollable conv) s

/-- `v.copy()`. -/
def copyValue (fuel : Nat) (env : Env) (v : Value) (s : List Nat) :
    Except Err (Value × List Nat) :=
  runReq fuel env (.mkCopy v) s

/-- Python `x - k` for a `Rollable` and a number: `numbers.Complex.__sub__`
is `self + (-other)`, which constructs `DiceAdder(self, -k)`. -/
def subConst (fuel : Nat) (env : Env) (x : Value) (k : Q) (s : List Nat) :
    Except Err (Value × List Nat) :=
  adderNew fuel env [x, .lit (qneg k)] (ofInt 0) s

/-- The degenerate-adder invariant: no adder node anywhere in the value has
exactly one term together with a (numerically) zero scalar. -/
inductive InvV : Value → Prop where
  | die : ∀ s c cc, InvV (.die s c cc)
  | dice : ∀ g c cc, (∀ x ∈ g, InvV x) → InvV (.dice g c cc)
  | adder : ∀ g sc cc, ¬(g.length = 1 ∧ qIsZero sc = true) → (∀ x ∈ g, InvV x) →
      InvV (.adder g sc cc)
  | multiplier : ∀ g sc cc, (∀ x ∈ g, InvV x) → InvV (.multiplier g sc cc)
  | trueDivider : ∀ nu de cc, InvV nu → InvV de → InvV (.trueDivider nu de cc)
  | modulus : ∀ nu de cc, InvV nu → InvV de → InvV (.modulus nu de cc)
  | roundNode : ∀ e nd cc, InvV e → InvV (.roundNode e nd cc)
  | lit : ∀ q, InvV (.lit q)
  | pynoneI : InvV .pynone

/-- All operands stored in a mappings table satisfy the invariant. -/
abbrev MInv (m : Mappings) : Prop := ∀ e ∈ m, ∀ x ∈ e.2, InvV x

/-- The invariant, read off a constructor request. -/
abbrev ReqInv : Req → Prop
  | .mkAdder args _ => ∀ x ∈ args, InvV x
  | .mkModulus nu de => InvV nu ∧ InvV de
  | .mkDice _ r _ => InvV r
  | .mkCopy v => InvV v
theorem ebindOk {α β : Type} (a : α) (f : α → Except Err β) :
    (Except.ok a >>= f) = f a := rfl

theorem ebindErr {α β : Type} (e : Err) (f : α → Except Err β) :
    ((Except.error e : Except Err α) >>= f) = Except.error e := rfl

theorem epureOk {α : Type} (a : α) : (pure a : Except Err α) = Except.ok a := rfl

theorem rollCore_setCache (env : Env) (f : Value → List Nat → Except Err (Q × Value × List Nat))
    (v : Value) (s : List Nat) (c : Option Q) :
    rollCore env f (setCache v c) s = rollCore env f v s := by
  cases v <;> rfl

theorem rollCore_ok_rollable (env : Env) (f : Value → List Nat → Except Err (Q × Value × List Nat))
    (v : Value) (s : List Nat) (r : Q) (v0 : Value) (s2 : List Nat)
    (h : rollCore env f v s = .ok (r, v0, s2)) : isRollable v0 = true := by
  cases v with
  | die sides conv c =>
    simp only [rollCore] at h
    split at h
    · simp at h
    · simp at h
      obtain ⟨-, h2, -⟩ := h
      subst h2
      rfl
  | dice g conv c =>
    simp only [rollCore] at h
    cases hq : rollEach f g s with
    | error e => rw [hq] at h; rw [ebindErr] at h; simp at h
    | ok tr =>
      obtain ⟨rs, g2, s3⟩ := tr
      rw [hq, ebindOk] at h
      simp at h
      obtain ⟨-, h2, -⟩ := h
      subst h2
      rfl
  | adder g sc c =>
    simp only [rollCore] at h
    cases hq : rollEach f g s with
    | error e => rw [hq, ebindErr] at h; simp at h
    | ok tr =>
      obtain ⟨rs, g2, s3⟩ := tr
      rw [hq, ebindOk] at h
      simp at h
      obtain ⟨-, h2, -⟩ := h
      subst h2
      rfl
  | multiplier g sc c =>
    simp only [rollCore] at h
    cases hq : rollEach f g s with
    | error e => rw [hq, ebindErr] at h; simp at h
    | ok tr =>
      obtain ⟨rs, g2, s3⟩ := tr
      rw [hq, ebindOk] at h
      dsimp only at h
      cases rs with
      | nil => simp at h
      | cons r0 rest =>
        simp at h
        obtain ⟨-, h2, -⟩ := h
        subst h2
        rfl
  | trueDivider nu de c =>
    simp only [rollCore] at h
    cases hq : rollOperand f nu s with
    | error e => rw [hq, ebindErr] at h; simp at h
    | ok tr =>
      obtain ⟨nv, nu2, s3⟩ := tr
      rw [hq, ebindOk] at h
      dsimp only at h
      cases hq2 : rollOperand f de s3 with
      | error e => rw [hq2, ebindErr] at h; simp at h
      | ok tr2 =>
        obtain ⟨dv, de2, s4⟩ := tr2
        rw [hq2, ebindOk] at h
        dsimp only at h
        cases nv with
        | none => cases dv <;> simp at h
        | some a =>
          cases dv with
          | none => simp at h
          | some b =>
            dsimp only at h
            split at h
            · simp at h
            · simp at h
              obtain ⟨-, h2, -⟩ := h
              subst h2
              rfl
  | modulus nu de c =>
    simp only [rollCore] at h
    cases hq : rollOperand f nu s with
    | error e => rw [hq, ebindErr] at h; simp at h
    | ok tr =>
      obtain ⟨nv, nu2, s3⟩ := tr
      rw [hq, ebindOk] at h
      dsimp only at h
      cases hq2 : rollOperand f de s3 with
      | error e => rw [hq2, ebindErr] at h; simp at h
      | ok tr2 =>
        obtain ⟨dv, de2, s4⟩ := tr2
        rw [hq2, ebindOk] at h
        dsimp only at h
        cases nv with
        | none => cases dv <;> simp at h
        | some a =>
          cases dv with
          | none => simp at h
          | some b =>
            dsimp only at h
            split at h
            · simp at h
            · simp at h
              obtain ⟨-, h2, -⟩ := h
              subst h2
              rfl
  | roundNode e nd c =>
    simp only [rollCore] at h
    cases hq : f e s with
    | error e2 => rw [hq, ebindErr] at h; simp at h
    | ok tr =>
      obtain ⟨r0, e2, s3⟩ := tr
      rw [hq, ebindOk] at h
      simp at h
      obtain ⟨-, h2, -⟩ := h
      subst h2
      rfl
  | lit q => simp [rollCore] at h
  | pynone => simp [rollCore] at h

theorem getCache_setCache_some (v : Value) (c : Q) (h : isRollable v = true) :
    getCache (setCache v (some c)) = some c := by
  cases v <;> simp_all [isRollable, setCache, getCache]

theorem rollValue_setCache (fuel : Nat) (env : Env) (v : Value) (s : List Nat) (c : Option Q) :
    rollValue fuel env (setCache v c) s = rollValue fuel env v s := by
  cases fuel with
  | zero => rfl
  | succ n => simp only [rollValue, rollCore_setCache]

theorem rollValue_writes_cache (fuel : Nat) (env : Env) (v : Value) (s : List Nat)
    (r : Q) (v2 : Value) (s2 : List Nat) (h : rollValue fuel env v s = .ok (r, v2, s2)) :
    getCache v2 = some r := by
  cases fuel with
  | zero => simp [rollValue] at h
  | succ n =>
    simp only [rollValue] at h
    cases hc : rollCore env (rollValue n env) v s with
    | error e => rw [hc, ebindErr] at h; simp at h
    | ok tr =>
      obtain ⟨r0, v00, s0⟩ := tr
      rw [hc, ebindOk] at h
      simp at h
      obtain ⟨h1, h2, -⟩ := h
      subst h1 h2
      exact getCache_setCache_some _ _ (rollCore_ok_rollable env _ v s _ _ _ hc)

theorem lastValue_cached (fuel : Nat) (env : Env) (v : Value) (s : List Nat) (c : Q)
    (h : getCache v = some c) : lastValue fuel env v s = .ok (c, v, s) := by
  simp only [lastValue, h]

theorem lastValue_empty (fuel : Nat) (env : Env) (v : Value) (s : List Nat)
    (h : getCache v = none) : lastValue fuel env v s = rollValue fuel env v s := by
  simp only [lastValue, h]

theorem C2_roll_last_contract :
    (∀ (fuel : Nat) (env : Env) (v : Value) (s : List Nat) (c : Option Q),
      rollValue fuel env (setCache v c) s = rollValue fuel env v s) ∧
    (∀ (fuel : Nat) (env : Env) (v : Value) (s : List Nat) (r : Q) (v2 : Value) (s2 : List Nat),
      rollValue fuel env v s = .ok (r, v2, s2) → getCache v2 = some r) ∧
    (∀ (fuel : Nat) (env : Env) (v : Value) (s : List Nat) (c : Q),
      getCache v = some c → lastValue fuel env v s = .ok (c, v, s)) ∧
    (∀ (fuel : Nat) (env : Env) (v : Value) (s : List Nat),
      getCache v = none → lastValue fuel env v s = rollValue fuel env v s) ∧
    (∀ (fuel : Nat) (env : Env) (v : Value) (s : List Nat) (r : Q) (v2 : Value)
      (s2 t : List Nat), rollValue fuel env v s = .ok (r, v2, s2) →
      lastValue fuel env v2 t = .ok (r, v2, t)) := by
  refine ⟨rollValue_setCache, rollValue_writes_cache, lastValue_cached, lastValue_empty, ?_⟩
  intro fuel env v s r v2 s2 t h
  exact lastValue_cached fuel env v2 t r (rollValue_writes_cache fuel env v s r v2 s2 h)

theorem C2_roll_last_contract_witness :
    (rollValue 3 defaultEnv (setCache (.die 6 0 none) (some (ofInt 1))) [9]
      = rollValue 3 defaultEnv (.die 6 0 none) [9]) ∧
    getCache (.die 6 0 (some (ofInt 4))) = some (ofInt 4) ∧
    lastValue 3 defaultEnv (.die 6 0 (some (ofInt 2))) [] = .ok (ofInt 2, .die 6 0 (some (ofInt 2)), []) ∧
    lastValue 3 defaultEnv (.die 6 0 none) [9] = rollValue 3 defaultEnv (.die 6 0 none) [9] ∧
    lastValue 3 defaultEnv (.die 6 0 (some (ofInt 4))) [] = .ok (ofInt 4, .die 6 0 (some (ofInt 4)), []) :=
  ⟨C2_roll_last_contract.1 3 defaultEnv (.die 6 0 none) [9] (some (ofInt 1)),
   C2_roll_last_contract.2.1 3 defaultEnv (.die 6 0 none) [9] (ofInt 4)
     (.die 6 0 (some (ofInt 4))) [] rfl,
   C2_roll_last_contract.2.2.1 3 defaultEnv (.die 6 0 (some (ofInt 2))) [] (ofInt 2) rfl,
   C2_roll_last_contract.2.2.2.1 3 defaultEnv (.die 6 0 none) [9] rfl,
   C2_roll_last_contract.2.2.2.2 3 defaultEnv (.die 6 0 none) [9] (ofInt 4)
     (.die 6 0 (some (ofInt 4))) [] [] rfl⟩

theorem qtrunc_ofInt (k : Int) : qtrunc (ofInt k) = k := by
  simp only [qtrunc, ofInt, Int.mul_one, Int.natAbs_one, Nat.div_one]
  split <;> omega

theorem C9_die_range_and_validation :
    (∀ sides : Int, 2 ≤ sides → dieNew (ofInt sides) 0 = .ok (.die sides.toNat 0 none)) ∧
    (∀ (sides fuel : Nat) (env : Env) (s : List Nat), 2 ≤ sides →
      ∃ k : Nat, rollValue (fuel + 1) env (.die sides 0 none) s
          = .ok (ofInt k, .die sides 0 (some (ofInt k)), s.tail) ∧ 1 ≤ k ∧ k ≤ sides) ∧
    (∀ (sides : Int) (conv : Nat), sides < 2 →
      dieNew (ofInt sides) conv = .error .invalidArgument) := by
  refine ⟨?_, ?_, ?_⟩
  · intro sides h
    simp only [dieNew, qtrunc_ofInt]
    rw [if_neg (by omega)]
  · intro sides fuel env s h
    refine ⟨1 + s.headD 0 % sides, ?_, by omega, ?_⟩
    · simp only [rollValue, rollCore]
      rw [if_neg (by simp; omega)]
      rfl
    · have := Nat.mod_lt (s.headD 0) (show 0 < sides by omega)
      omega
  · intro sides conv h
    simp only [dieNew, qtrunc_ofInt]
    rw [if_pos (by omega)]

theorem C9_die_range_and_validation_witness :
    dieNew (ofInt 6) 0 = .ok (.die 6 0 none) ∧
    (∃ k : Nat, rollValue 1 defaultEnv (.die 6 0 none) [9]
        = .ok (ofInt k, .die 6 0 (some (ofInt k)), [9].tail) ∧ 1 ≤ k ∧ k ≤ 6) ∧
    dieNew (ofInt 1) 0 = .error .invalidArgument :=
  ⟨C9_die_range_and_validation.1 6 (by omega),
   C9_die_range_and_validation.2.1 6 0 defaultEnv [9] (by omega),
   C9_die_range_and_validation.2.2 1 0 (by omega)⟩

/-- C10: `RollableSequence.__getitem__` (src/xdh/_dice.py:225-226) evaluates
`self._group[index]` and falls off the end of the function, so for every
composite sequence node — `Dice`, `DiceAdder`, `DiceMultiplier` and the
bitwise reductions `DiceBitwiseAnd`, `DiceBitwiseOr`, `DiceBitwiseXOr`, all
of which inherit this one method — and every in-range index, nonnegative or
negative, `node[index]` returns `None` instead of the stored child; on the
node classes the main embedding carries the operation agrees with
`getitemSeq`. -/
theorem C10_getitem_returns_none (node : SeqNode) (i : Int)
    (h1 : -(List.length (seqGroup node) : Int) ≤ i)
    (h2 : i < (List.length (seqGroup node) : Int)) :
    getitemRS node i = .ok .pynone ∧
    ∀ v : Value, asSeqNode v = some node → getitemSeq v i = .ok .pynone := by
  constructor
  · simp only [getitemRS, tupleGet]
    rw [dif_pos (by simp only [pyIndex]; refine ⟨?_, ?_⟩ <;> split <;> omega)]
    rfl
  · intro v hv
    cases v with
    | dice g c cc =>
      simp only [asSeqNode, Option.some.injEq] at hv
      subst hv
      simp only [seqGroup] at h1 h2
      simp only [getitemSeq]
      rw [if_pos ⟨h1, h2⟩]
    | adder g sc cc =>
      simp only [asSeqNode, Option.some.injEq] at hv
      subst hv
      simp only [seqGroup] at h1 h2
      simp only [getitemSeq]
      rw [if_pos ⟨h1, h2⟩]
    | multiplier g sc cc =>
      simp only [asSeqNode, Option.some.injEq] at hv
      subst hv
      simp only [seqGroup] at h1 h2
      simp only [getitemSeq]
      rw [if_pos ⟨h1, h2⟩]
    | die sd c cc => simp [asSeqNode] at hv
    | trueDivider a b cc => simp [asSeqNode] at hv
    | modulus a b cc => simp [asSeqNode] at hv
    | roundNode e nd cc => simp [asSeqNode] at hv
    | lit q => simp [asSeqNode] at hv
    | pynone => simp [asSeqNode] at hv

theorem C10_getitem_returns_none_witness :
    getitemRS (.bitAndS [.die 6 0 none, .die 6 0 none] (ofInt (-1))) (-1) = .ok .pynone ∧
    getitemRS (.bitOrS [.die 6 0 none] (ofInt 0)) 0 = .ok .pynone ∧
    getitemRS (.bitXorS [.die 6 0 none] (ofInt 0)) 0 = .ok .pynone ∧
    getitemSeq (.dice [.die 6 0 none, .die 6 0 none] 0 none) (-2) = .ok .pynone :=
  ⟨(C10_getitem_returns_none (.bitAndS [.die 6 0 none, .die 6 0 none] (ofInt (-1))) (-1)
      (by decide) (by decide)).1,
   (C10_getitem_returns_none (.bitOrS [.die 6 0 none] (ofInt 0)) 0
      (by decide) (by decide)).1,
   (C10_getitem_returns_none (.bitXorS [.die 6 0 none] (ofInt 0)) 0
      (by decide) (by decide)).1,
   (C10_getitem_returns_none (.diceS [.die 6 0 none, .die 6 0 none] 0) (-2)
      (by decide) (by decide)).2 (.dice [.die 6 0 none, .die 6 0 none] 0 none) rfl⟩

theorem die_roll_eval (fuel : Nat) (env : Env) (sides : Nat) (s : List Nat) (h : sides ≠ 0) :
    rollValue (fuel + 1) env (.die sides 0 none) s
      = .ok (ofInt (1 + (s.headD 0 % sides : Nat)), .die sides 0 (some (ofInt (1 + (s.headD 0 % sides : Nat)))), s.tail) := by
  simp only [rollValue, rollCore]
  rw [if_neg (by simp [h])]
  rfl

theorem C3_die20_mod4 :
    (∀ s : List Nat,
      modulusNew 30 defaultEnv (.die 20 0 none) (.lit (ofInt 4)) s
        = .ok (.adder [.die 4 0 none] (ofInt (-1)) none, s) ∧
      subConst 30 defaultEnv (.die 4 0 none) (ofInt 1) s
        = .ok (.adder [.die 4 0 none] (ofInt (-1)) none, s)) ∧
    (∀ (fuel : Nat) (s : List Nat), ∃ k : Nat,
      rollValue (fuel + 2) defaultEnv (.adder [.die 4 0 none] (ofInt (-1)) none) s
        = .ok (ofInt k, .adder [.die 4 0 (some (ofInt (1 + k)))] (ofInt (-1)) (some (ofInt k)), s.tail)
        ∧ k < 4) ∧
    (∀ k : Nat, k < 4 →
      rollValue 2 defaultEnv (.adder [.die 4 0 none] (ofInt (-1)) none) [k]
        = .ok (ofInt k, .adder [.die 4 0 (some (ofInt (1 + k)))] (ofInt (-1)) (some (ofInt k)), [])) := by
  refine ⟨fun s => ⟨rfl, rfl⟩, ?_, ?_⟩
  · intro fuel s
    refine ⟨s.headD 0 % 4, ?_, Nat.mod_lt _ (by omega)⟩
    simp only [rollValue, rollCore, rollEach]
    rw [if_neg (by simp)]
    simp only [ebindOk]
    dsimp only [setCache, applyDieConv]
    norm_num [qsum, qadd, qneg, ofInt, Q.mk.injEq, List.foldl]
  · intro k hk
    simp only [rollValue, rollCore, rollEach]
    rw [if_neg (by simp)]
    simp only [ebindOk]
    dsimp only [setCache, applyDieConv]
    norm_num [qsum, qadd, qneg, ofInt, Q.mk.injEq, List.foldl]
    omega

theorem InvV_setCache (v : Value) (c : Option Q) (h : InvV v) : InvV (setCache v c) := by
  cases h <;> simp only [setCache] <;> constructor <;> assumption

theorem rollEach_pres (f : Value → List Nat → Except Err (Q × Value × List Nat))
    (hf : ∀ v s r v2 s2, f v s = .ok (r, v2, s2) → InvV v → InvV v2) :
    ∀ (l : List Value) (s : List Nat) rs l2 s2, rollEach f l s = .ok (rs, l2, s2) →
      (∀ x ∈ l, InvV x) → (∀ x ∈ l2, InvV x) := by
  intro l
  induction l with
  | nil =>
    intro s rs l2 s2 h hl
    simp only [rollEach, Except.ok.injEq, Prod.mk.injEq] at h
    obtain ⟨-, h2, -⟩ := h
    subst h2
    simp
  | cons v t ih =>
    intro s rs l2 s2 h hl
    simp only [rollEach] at h
    cases hq : f v s with
    | error e => rw [hq, ebindErr] at h; simp at h
    | ok tr =>
      obtain ⟨r0, v0, s0⟩ := tr
      rw [hq, ebindOk] at h
      dsimp only at h
      cases hq2 : rollEach f t s0 with
      | error e => rw [hq2, ebindErr] at h; simp at h
      | ok tr2 =>
        obtain ⟨rs0, t0, s1⟩ := tr2
        rw [hq2, ebindOk] at h
        simp only [Except.ok.injEq, Prod.mk.injEq] at h
        obtain ⟨-, h2, -⟩ := h
        subst h2
        intro x hx
        cases hx with
        | head =>
          exact hf v s r0 v0 s0 hq (hl v (by simp))
        | tail _ hmem =>
          exact ih s0 rs0 t0 s1 hq2 (fun y hy => hl y (by simp [hy])) x hmem

theorem rollOperand_pres (f : Value → List Nat → Except Err (Q × Value × List Nat))
    (hf : ∀ v s r v2 s2, f v s = .ok (r, v2, s2) → InvV v → InvV v2)
    (v : Value) (s : List Nat) (r : Option Q) (v2 : Value) (s2 : List Nat)
    (h : rollOperand f v s = .ok (r, v2, s2)) (hv : InvV v) : InvV v2 := by
  cases v with
  | lit q => simp only [rollOperand, Except.ok.injEq, Prod.mk.injEq] at h; obtain ⟨-, h2, -⟩ := h; subst h2; exact hv
  | pynone => simp only [rollOperand, Except.ok.injEq, Prod.mk.injEq] at h; obtain ⟨-, h2, -⟩ := h; subst h2; exact hv
  | die a b c =>
    simp only [rollOperand] at h
    cases hq : f (.die a b c) s with
    | error e => rw [hq, ebindErr] at h; simp at h
    | ok tr =>
      obtain ⟨r0, v0, s0⟩ := tr
      rw [hq, ebindOk] at h
      simp only [Except.ok.injEq, Prod.mk.injEq] at h
      obtain ⟨-, h2, -⟩ := h
      subst h2
      exact hf _ s r0 v0 s0 hq hv
  | dice g c cc =>
    simp only [rollOperand] at h
    cases hq : f (.dice g c cc) s with
    | error e => rw [hq, ebindErr] at h; simp at h
    | ok tr =>
      obtain ⟨r0, v0, s0⟩ := tr
      rw [hq, ebindOk] at h
      simp only [Except.ok.injEq, Prod.mk.injEq] at h
      obtain ⟨-, h2, -⟩ := h
      subst h2
      exact hf _ s r0 v0 s0 hq hv
  | adder g sc cc =>
    simp only [rollOperand] at h
    cases hq : f (.adder g sc cc) s with
    | error e => rw [hq, ebindErr] at h; simp at h
    | ok tr =>
      obtain ⟨r0, v0, s0⟩ := tr
      rw [hq, ebindOk] at h
      simp only [Except.ok.injEq, Prod.mk.injEq] at h
      obtain ⟨-, h2, -⟩ := h
      subst h2
      exact hf _ s r0 v0 s0 hq hv
  | multiplier g sc cc =>
    simp only [rollOperand] at h
    cases hq : f (.multiplier g sc cc) s with
    | error e => rw [hq, ebindErr] at h; simp at h
    | ok tr =>
      obtain ⟨r0, v0, s0⟩ := tr
      rw [hq, ebindOk] at h
      simp only [Except.ok.injEq, Prod.mk.injEq] at h
      obtain ⟨-, h2, -⟩ := h
      subst h2
      exact hf _ s r0 v0 s0 hq hv
  | trueDivider nu de cc =>
    simp only [rollOperand] at h
    cases hq : f (.trueDivider nu de cc) s with
    | error e => rw [hq, ebindErr] at h; simp at h
    | ok tr =>
      obtain ⟨r0, v0, s0⟩ := tr
      rw [hq, ebindOk] at h
      simp only [Except.ok.injEq, Prod.mk.injEq] at h
      obtain ⟨-, h2, -⟩ := h
      subst h2
      exact hf _ s r0 v0 s0 hq hv
  | modulus nu de cc =>
    simp only [rollOperand] at h
    cases hq : f (.modulus nu de cc) s with
    | error e => rw [hq, ebindErr] at h; simp at h
    | ok tr =>
      obtain ⟨r0, v0, s0⟩ := tr
      rw [hq, ebindOk] at h
      simp only [Except.ok.injEq, Prod.mk.injEq] at h
      obtain ⟨-, h2, -⟩ := h
      subst h2
      exact hf _ s r0 v0 s0 hq hv
  | roundNode e nd cc =>
    simp only [rollOperand] at h
    cases hq : f (.roundNode e nd cc) s with
    | error e2 => rw [hq, ebindErr] at h; simp at h
    | ok tr =>
      obtain ⟨r0, v0, s0⟩ := tr
      rw [hq, ebindOk] at h
      simp only [Except.ok.injEq, Prod.mk.injEq] at h
      obtain ⟨-, h2, -⟩ := h
      subst h2
      exact hf _ s r0 v0 s0 hq hv

theorem rollCore_pres (env : Env) (f : Value → List Nat → Except Err (Q × Value × List Nat))
    (hf : ∀ v s r v2 s2, f v s = .ok (r, v2, s2) → InvV v → InvV v2)
    (v : Value) (s : List Nat) (r : Q) (v2 : Value) (s2 : List Nat)
    (h : rollCore env f v s = .ok (r, v2, s2)) (hv : InvV v) : InvV v2 := by
  cases v with
  | die sides conv c =>
    simp only [rollCore] at h
    split at h
    · simp at h
    · simp only [Except.ok.injEq, Prod.mk.injEq] at h
      obtain ⟨-, h2, -⟩ := h
      subst h2
      exact .die _ _ _
  | dice g conv c =>
    simp only [rollCore] at h
    cases hq : rollEach f g s with
    | error e => rw [hq, ebindErr] at h; simp at h
    | ok tr =>
      obtain ⟨rs, g2, s3⟩ := tr
      rw [hq, ebindOk] at h
      simp only [Except.ok.injEq, Prod.mk.injEq] at h
      obtain ⟨-, h2, -⟩ := h
      subst h2
      cases hv with
      | dice _ _ _ hg => exact .dice _ _ _ (rollEach_pres f hf g s rs g2 s3 hq hg)
  | adder g sc c =>
    simp only [rollCore] at h
    cases hq : rollEach f g s with
    | error e => rw [hq, ebindErr] at h; simp at h
    | ok tr =>
      obtain ⟨rs, g2, s3⟩ := tr
      rw [hq, ebindOk] at h
      simp only [Except.ok.injEq, Prod.mk.injEq] at h
      obtain ⟨-, h2, -⟩ := h
      subst h2
      cases hv with
      | adder _ _ _ hdeg hg =>
        refine .adder _ _ _ ?_ (rollEach_pres f hf g s rs g2 s3 hq hg)
        have hlen : g2.length = g.length := by
          clear hdeg hg
          induction g generalizing s rs g2 s3 with
          | nil =>
            simp only [rollEach, Except.ok.injEq, Prod.mk.injEq] at hq
            obtain ⟨-, h2, -⟩ := hq
            subst h2
            rfl
          | cons v t ih =>
            simp only [rollEach] at hq
            cases hq1 : f v s with
            | error e => rw [hq1, ebindErr] at hq; simp at hq
            | ok tr =>
              obtain ⟨r0, v0, s0⟩ := tr
              rw [hq1, ebindOk] at hq
              dsimp only at hq
              cases hq2 : rollEach f t s0 with
              | error e => rw [hq2, ebindErr] at hq; simp at hq
              | ok tr2 =>
                obtain ⟨rs0, t0, s1⟩ := tr2
                rw [hq2, ebindOk] at hq
                simp only [Except.ok.injEq, Prod.mk.injEq] at hq
                obtain ⟨-, h2, -⟩ := hq
                subst h2
                simp [ih s0 rs0 t0 s1 hq2]
        rw [hlen]
        exact hdeg
  | multiplier g sc c =>
    simp only [rollCore] at h
    cases hq : rollEach f g s with
    | error e => rw [hq, ebindErr] at h; simp at h
    | ok tr =>
      obtain ⟨rs, g2, s3⟩ := tr
      rw [hq, ebindOk] at h
      dsimp only at h
      cases rs with
      | nil => simp at h
      | cons r0 rest =>
        simp only [Except.ok.injEq, Prod.mk.injEq] at h
        obtain ⟨-, h2, -⟩ := h
        subst h2
        cases hv with
        | multiplier _ _ _ hg => exact .multiplier _ _ _ (rollEach_pres f hf g s _ g2 s3 hq hg)
  | trueDivider nu de c =>
    simp only [rollCore] at h
    cases hq : rollOperand f nu s with
    | error e => rw [hq, ebindErr] at h; simp at h
    | ok tr =>
      obtain ⟨nv, nu2, s3⟩ := tr
      rw [hq, ebindOk] at h
      dsimp only at h
      cases hq2 : rollOperand f de s3 with
      | error e => rw [hq2, ebindErr] at h; simp at h
      | ok tr2 =>
        obtain ⟨dv, de2, s4⟩ := tr2
        rw [hq2, ebindOk] at h
        dsimp only at h
        cases nv with
        | none => cases dv <;> simp at h
        | some a =>
          cases dv with
          | none => simp at h
          | some b =>
            dsimp only at h
            split at h
            · simp at h
            · simp only [Except.ok.injEq, Prod.mk.injEq] at h
              obtain ⟨-, h2, -⟩ := h
              subst h2
              cases hv with
              | trueDivider _ _ _ hnu hde =>
                exact .trueDivider _ _ _ (rollOperand_pres f hf nu s _ nu2 s3 hq hnu)
                  (rollOperand_pres f hf de s3 _ de2 s4 hq2 hde)
  | modulus nu de c =>
    simp only [rollCore] at h
    cases hq : rollOperand f nu s with
    | error e => rw [hq, ebindErr] at h; simp at h
    | ok tr =>
      obtain ⟨nv, nu2, s3⟩ := tr
      rw [hq, ebindOk] at h
      dsimp only at h
      cases hq2 : rollOperand f de s3 with
      | error e => rw [hq2, ebindErr] at h; simp at h
      | ok tr2 =>
        obtain ⟨dv, de2, s4⟩ := tr2
        rw [hq2, ebindOk] at h
        dsimp only at h
        cases nv with
        | none => cases dv <;> simp at h
        | some a =>
          cases dv with
          | none => simp at h
          | some b =>
            dsimp only at h
            split at h
            · simp at h
            · simp only [Except.ok.injEq, Prod.mk.injEq] at h
              obtain ⟨-, h2, -⟩ := h
              subst h2
              cases hv with
              | modulus _ _ _ hnu hde =>
                exact .modulus _ _ _ (rollOperand_pres f hf nu s _ nu2 s3 hq hnu)
                  (rollOperand_pres f hf de s3 _ de2 s4 hq2 hde)
  | roundNode e nd c =>
    simp only [rollCore] at h
    cases hq : f e s with
    | error e2 => rw [hq, ebindErr] at h; simp at h
    | ok tr =>
      obtain ⟨r0, e2, s3⟩ := tr
      rw [hq, ebindOk] at h
      simp only [Except.ok.injEq, Prod.mk.injEq] at h
      obtain ⟨-, h2, -⟩ := h
      subst h2
      cases hv with
      | roundNode _ _ _ he => exact .roundNode _ _ _ (hf e s r0 e2 s3 hq he)
  | lit q => simp [rollCore] at h
  | pynone => simp [rollCore] at h

theorem rollValue_pres : ∀ (fuel : Nat) (env : Env) (v : Value) (s : List Nat) r v2 s2,
    rollValue fuel env v s = .ok (r, v2, s2) → InvV v → InvV v2 := by
  intro fuel
  induction fuel with
  | zero => intro env v s r v2 s2 h; simp [rollValue] at h
  | succ n ih =>
    intro env v s r v2 s2 h hv
    simp only [rollValue] at h
    cases hc : rollCore env (rollValue n env) v s with
    | error e => rw [hc, ebindErr] at h; simp at h
    | ok tr =>
      obtain ⟨r0, v00, s0⟩ := tr
      rw [hc, ebindOk] at h
      simp only [Except.ok.injEq, Prod.mk.injEq] at h
      obtain ⟨-, h2, -⟩ := h
      subst h2
      exact InvV_setCache _ _ (rollCore_pres env (rollValue n env) (ih env) v s r0 v00 s0 hc hv)

theorem lastValue_pres (fuel : Nat) (env : Env) (v : Value) (s : List Nat) (r : Q)
    (v2 : Value) (s2 : List Nat) (h : lastValue fuel env v s = .ok (r, v2, s2))
    (hv : InvV v) : InvV v2 := by
  simp only [lastValue] at h
  cases hg : getCache v with
  | some c =>
    rw [hg] at h
    simp only [Except.ok.injEq, Prod.mk.injEq] at h
    obtain ⟨-, h2, -⟩ := h
    subst h2
    exact hv
  | none =>
    rw [hg] at h
    exact rollValue_pres fuel env v s r v2 s2 h hv

theorem boolValue_eq_last (fuel : Nat) (env : Env) (v : Value) (s : List Nat)
    (hrol : isRollable v = true) :
    boolValue fuel env v s = (do
      let (r, v2, s2) ← lastValue fuel env v s
      Except.ok (!(qIsZero r), v2, s2)) := by
  cases v
  case lit q => simp [isRollable] at hrol
  case pynone => simp [isRollable] at hrol
  all_goals rfl

theorem boolValue_pres (fuel : Nat) (env : Env) (v : Value) (s : List Nat) (b : Bool)
    (v2 : Value) (s2 : List Nat) (h : boolValue fuel env v s = .ok (b, v2, s2))
    (hv : InvV v) : InvV v2 := by
  cases hrol : isRollable v with
  | false =>
    cases v
    case lit q =>
      simp only [boolValue, Except.ok.injEq, Prod.mk.injEq] at h
      obtain ⟨-, h2, -⟩ := h
      subst h2
      exact hv
    case pynone =>
      simp only [boolValue, Except.ok.injEq, Prod.mk.injEq] at h
      obtain ⟨-, h2, -⟩ := h
      subst h2
      exact hv
    all_goals exact Bool.noConfusion hrol
  | true =>
    rw [boolValue_eq_last fuel env v s hrol] at h
    revert h
    cases hq : lastValue fuel env v s with
    | error e => intro h; rw [ebindErr] at h; simp at h
    | ok tr =>
      obtain ⟨r0, v0, s0⟩ := tr
      intro h
      rw [ebindOk] at h
      simp only [Except.ok.injEq, Prod.mk.injEq] at h
      obtain ⟨-, h2, -⟩ := h
      subst h2
      exact lastValue_pres fuel env v s r0 v0 s0 hq hv

theorem eqLast_pres (fuel : Nat) (env : Env) (a b : Value) (s : List Nat) (r : Bool)
    (a2 b2 : Value) (s2 : List Nat) (h : eqLast fuel env a b s = .ok (r, a2, b2, s2))
    (ha : InvV a) (hb : InvV b) : InvV a2 ∧ InvV b2 := by
  simp only [eqLast] at h
  revert h
  cases hq : lastValue fuel env a s with
  | error e => intro h; rw [ebindErr] at h; simp at h
  | ok tr =>
    obtain ⟨ra, a0, s0⟩ := tr
    intro h
    rw [ebindOk] at h
    dsimp only at h
    revert h
    cases hq2 : lastValue fuel env b s0 with
    | error e => intro h; rw [ebindErr] at h; simp at h
    | ok tr2 =>
      obtain ⟨rb, b0, s1⟩ := tr2
      intro h
      rw [ebindOk] at h
      simp only [Except.ok.injEq, Prod.mk.injEq] at h
      obtain ⟨-, h2, h3, -⟩ := h
      subst h2 h3
      exact ⟨lastValue_pres fuel env a s ra a0 s0 hq ha,
             lastValue_pres fuel env b s0 rb b0 s1 hq2 hb⟩

theorem setInsert_pres (fuel : Nat) (env : Env) :
    ∀ (reps : List Value) (cand : Value) (s : List Nat) (reps2 : List Value) (s2 : List Nat),
      setInsert fuel env reps cand s = .ok (reps2, s2) →
      (∀ x ∈ reps, InvV x) → InvV cand → (∀ x ∈ reps2, InvV x) := by
  intro reps
  induction reps with
  | nil =>
    intro cand s reps2 s2 h hr hc
    simp only [setInsert, Except.ok.injEq, Prod.mk.injEq] at h
    obtain ⟨h1, -⟩ := h
    subst h1
    simpa using hc
  | cons r rest ih =>
    intro cand s reps2 s2 h hr hc
    simp only [setInsert] at h
    revert h
    cases hh : hashEqV fuel r cand with
    | error e => intro h; rw [ebindErr] at h; simp at h
    | ok hb =>
      intro h
      rw [ebindOk] at h
      revert h
      by_cases hbv : hb = true
      · subst hbv
        rw [if_pos rfl]
        cases hq : eqLast fuel env r cand s with
        | error e => intro h; rw [ebindErr] at h; simp at h
        | ok tr =>
          obtain ⟨bb, r2, cand2, s0⟩ := tr
          intro h
          rw [ebindOk] at h
          dsimp only at h
          have hpres := eqLast_pres fuel env r cand s bb r2 cand2 s0 hq (hr r (by simp)) hc
          revert h
          by_cases hbb : bb = true
          · subst hbb
            rw [if_pos rfl]
            intro h
            simp only [Except.ok.injEq, Prod.mk.injEq] at h
            obtain ⟨h1, -⟩ := h
            subst h1
            intro x hx
            cases hx with
            | head => exact hpres.1
            | tail _ hmem => exact hr x (List.mem_cons_of_mem _ hmem)
          · rw [if_neg hbb]
            cases hq2 : setInsert fuel env rest cand2 s0 with
            | error e => intro h; rw [ebindErr] at h; simp at h
            | ok tr2 =>
              obtain ⟨rest2, s1⟩ := tr2
              intro h
              rw [ebindOk] at h
              simp only [Except.ok.injEq, Prod.mk.injEq] at h
              obtain ⟨h1, -⟩ := h
              subst h1
              intro x hx
              cases hx with
              | head => exact hpres.1
              | tail _ hmem =>
                exact ih cand2 s0 rest2 s1 hq2 (fun y hy => hr y (by simp [hy])) hpres.2 x hmem
      · rw [if_neg hbv]
        cases hq2 : setInsert fuel env rest cand s with
        | error e => intro h; rw [ebindErr] at h; simp at h
        | ok tr2 =>
          obtain ⟨rest2, s1⟩ := tr2
          intro h
          rw [ebindOk] at h
          simp only [Except.ok.injEq, Prod.mk.injEq] at h
          obtain ⟨h1, -⟩ := h
          subst h1
          intro x hx
          cases hx with
          | head => exact hr r (by simp)
          | tail _ hmem =>
            exact ih cand s rest2 s1 hq2 (fun y hy => hr y (by simp [hy])) hc x hmem

theorem setBuild_pres (fuel : Nat) (env : Env) (xs : List Value) (s : List Nat)
    (reps : List Value) (s2 : List Nat) (h : setBuild fuel env xs s = .ok (reps, s2))
    (hx : ∀ x ∈ xs, InvV x) : ∀ x ∈ reps, InvV x := by
  simp only [setBuild] at h
  suffices haux : ∀ (l : List Value) (acc : List Value × List Nat) (out : List Value × List Nat),
      l.foldlM (fun acc x => setInsert fuel env acc.1 x acc.2) acc = .ok out →
      (∀ x ∈ l, InvV x) → (∀ x ∈ acc.1, InvV x) → (∀ x ∈ out.1, InvV x) by
    exact haux xs ([], s) (reps, s2) h hx (by simp)
  intro l
  induction l with
  | nil =>
    intro acc out h hl hacc
    simp only [List.foldlM] at h
    simp only [epureOk, Except.ok.injEq] at h
    subst h
    exact hacc
  | cons x t ih =>
    intro acc out h hl hacc
    simp only [List.foldlM] at h
    revert h
    cases hq : setInsert fuel env acc.1 x acc.2 with
    | error e => intro h; rw [ebindErr] at h; simp at h
    | ok tr =>
      obtain ⟨reps0, s0⟩ := tr
      intro h
      rw [ebindOk] at h
      exact ih (reps0, s0) out h (fun y hy => hl y (by simp [hy]))
        (setInsert_pres fuel env acc.1 x acc.2 reps0 s0 hq hacc (hl x (by simp)))

theorem foldlM_inv {α β : Type} (P : β → Prop) (Qp : α → Prop) (f : β → α → Except Err β) :
    ∀ (l : List α) (init out : β), l.foldlM f init = .ok out →
      (∀ a ∈ l, Qp a) → (∀ b a b2, P b → Qp a → f b a = .ok b2 → P b2) → P init → P out := by
  intro l
  induction l with
  | nil =>
    intro init out h hl hstep hinit
    simp only [List.foldlM, epureOk, Except.ok.injEq] at h
    subst h
    exact hinit
  | cons a t ih =>
    intro init out h hl hstep hinit
    simp only [List.foldlM] at h
    revert h
    cases hq : f init a with
    | error e => intro h; rw [ebindErr] at h; simp at h
    | ok b2 =>
      intro h
      rw [ebindOk] at h
      exact ih b2 out h (fun y hy => hl y (by simp [hy])) hstep
        (hstep init a b2 hinit (hl a (by simp)) hq)

theorem dictGet_pres (fuel : Nat) (env : Env) :
    ∀ (entries : List (Value × Nat)) (key : Value) (s : List Nat) res entries2 key2 s2,
      dictGet fuel env entries key s = .ok (res, entries2, key2, s2) →
      (∀ p ∈ entries, InvV p.1) → InvV key →
      (∀ p ∈ entries2, InvV p.1) ∧ InvV key2 := by
  intro entries
  induction entries with
  | nil =>
    intro key s res entries2 key2 s2 h he hk
    simp only [dictGet, Except.ok.injEq, Prod.mk.injEq] at h
    obtain ⟨-, h1, h2, -⟩ := h
    subst h1 h2
    exact ⟨by simp, hk⟩
  | cons e rest ih =>
    obtain ⟨k, cnt⟩ := e
    intro key s res entries2 key2 s2 h he hk
    simp only [dictGet] at h
    revert h
    cases hh : hashEqV fuel k key with
    | error er => intro h; rw [ebindErr] at h; simp at h
    | ok hb =>
      intro h
      rw [ebindOk] at h
      revert h
      by_cases hbv : hb = true
      · subst hbv
        rw [if_pos rfl]
        cases hq : eqLast fuel env k key s with
        | error er => intro h; rw [ebindErr] at h; simp at h
        | ok tr =>
          obtain ⟨bb, k2, keyB, s0⟩ := tr
          intro h
          rw [ebindOk] at h
          dsimp only at h
          have hpres := eqLast_pres fuel env k key s bb k2 keyB s0 hq (he (k, cnt) (by simp)) hk
          revert h
          by_cases hbb : bb = true
          · subst hbb
            rw [if_pos rfl]
            intro h
            simp only [Except.ok.injEq, Prod.mk.injEq] at h
            obtain ⟨-, h1, h2, -⟩ := h
            subst h1 h2
            refine ⟨?_, hpres.2⟩
            intro p hp
            cases hp with
            | head => exact hpres.1
            | tail _ hmem => exact he p (List.mem_cons_of_mem _ hmem)
          · rw [if_neg hbb]
            cases hq2 : dictGet fuel env rest keyB s0 with
            | error er => intro h; rw [ebindErr] at h; simp at h
            | ok tr2 =>
              obtain ⟨res0, rest2, key3, s1⟩ := tr2
              intro h
              rw [ebindOk] at h
              simp only [Except.ok.injEq, Prod.mk.injEq] at h
              obtain ⟨-, h1, h2, -⟩ := h
              subst h1 h2
              have hrec := ih keyB s0 res0 rest2 key3 s1 hq2
                (fun p hp => he p (List.mem_cons_of_mem _ hp)) hpres.2
              refine ⟨?_, hrec.2⟩
              intro p hp
              cases hp with
              | head => exact hpres.1
              | tail _ hmem => exact hrec.1 p hmem
      · rw [if_neg hbv]
        cases hq2 : dictGet fuel env rest key s with
        | error er => intro h; rw [ebindErr] at h; simp at h
        | ok tr2 =>
          obtain ⟨res0, rest2, key3, s1⟩ := tr2
          intro h
          rw [ebindOk] at h
          simp only [Except.ok.injEq, Prod.mk.injEq] at h
          obtain ⟨-, h1, h2, -⟩ := h
          subst h1 h2
          have hrec := ih key s res0 rest2 key3 s1 hq2
            (fun p hp => he p (List.mem_cons_of_mem _ hp)) hk
          refine ⟨?_, hrec.2⟩
          intro p hp
          cases hp with
          | head => exact he (k, cnt) (by simp)
          | tail _ hmem => exact hrec.1 p hmem

theorem dictSet_pres (fuel : Nat) (env : Env) :
    ∀ (entries : List (Value × Nat)) (key : Value) (v : Nat) (s : List Nat) entries2 s2,
      dictSet fuel env entries key v s = .ok (entries2, s2) →
      (∀ p ∈ entries, InvV p.1) → InvV key →
      (∀ p ∈ entries2, InvV p.1) := by
  intro entries
  induction entries with
  | nil =>
    intro key v s entries2 s2 h he hk
    simp only [dictSet, Except.ok.injEq, Prod.mk.injEq] at h
    obtain ⟨h1, -⟩ := h
    subst h1
    simpa using hk
  | cons e rest ih =>
    obtain ⟨k, cnt⟩ := e
    intro key v s entries2 s2 h he hk
    simp only [dictSet] at h
    revert h
    cases hh : hashEqV fuel k key with
    | error er => intro h; rw [ebindErr] at h; simp at h
    | ok hb =>
      intro h
      rw [ebindOk] at h
      revert h
      by_cases hbv : hb = true
      · subst hbv
        rw [if_pos rfl]
        cases hq : eqLast fuel env k key s with
        | error er => intro h; rw [ebindErr] at h; simp at h
        | ok tr =>
          obtain ⟨bb, k2, keyB, s0⟩ := tr
          intro h
          rw [ebindOk] at h
          dsimp only at h
          have hpres := eqLast_pres fuel env k key s bb k2 keyB s0 hq (he (k, cnt) (by simp)) hk
          revert h
          by_cases hbb : bb = true
          · subst hbb
            rw [if_pos rfl]
            intro h
            simp only [Except.ok.injEq, Prod.mk.injEq] at h
            obtain ⟨h1, -⟩ := h
            subst h1
            intro p hp
            cases hp with
            | head => exact hpres.1
            | tail _ hmem => exact he p (List.mem_cons_of_mem _ hmem)
          · rw [if_neg hbb]
            cases hq2 : dictSet fuel env rest keyB v s0 with
            | error er => intro h; rw [ebindErr] at h; simp at h
            | ok tr2 =>
              obtain ⟨rest2, s1⟩ := tr2
              intro h
              rw [ebindOk] at h
              simp only [Except.ok.injEq, Prod.mk.injEq] at h
              obtain ⟨h1, -⟩ := h
              subst h1
              intro p hp
              cases hp with
              | head => exact hpres.1
              | tail _ hmem =>
                exact ih keyB v s0 rest2 s1 hq2
                  (fun p2 hp2 => he p2 (List.mem_cons_of_mem _ hp2)) hpres.2 p hmem
      · rw [if_neg hbv]
        cases hq2 : dictSet fuel env rest key v s with
        | error er => intro h; rw [ebindErr] at h; simp at h
        | ok tr2 =>
          obtain ⟨rest2, s1⟩ := tr2
          intro h
          rw [ebindOk] at h
          simp only [Except.ok.injEq, Prod.mk.injEq] at h
          obtain ⟨h1, -⟩ := h
          subst h1
          intro p hp
          cases hp with
          | head => exact he (k, cnt) (by simp)
          | tail _ hmem =>
            exact ih key v s rest2 s1 hq2
              (fun p2 hp2 => he p2 (List.mem_cons_of_mem _ hp2)) hk p hmem

theorem mappingsOf_inv (args : List Value) (h : ∀ x ∈ args, InvV x) :
    MInv (mappingsOf args) := by
  intro e he x hx
  simp only [mappingsOf, List.mem_map] at he
  obtain ⟨t, -, rfl⟩ := he
  exact h x (List.mem_of_mem_filter hx)

theorem mpop_inv : ∀ (m : Mappings) (t : PyTy) (items : List Value) (m2 : Mappings),
    mpop m t = some (items, m2) → MInv m → (∀ x ∈ items, InvV x) ∧ MInv m2 := by
  intro m
  induction m with
  | nil => intro t items m2 h; simp [mpop] at h
  | cons e rest ih =>
    obtain ⟨t2, bucket⟩ := e
    intro t items m2 h hm
    simp only [mpop] at h
    revert h
    by_cases ht : (t2 == t) = true
    · rw [if_pos ht]
      intro h
      simp only [Option.some.injEq, Prod.mk.injEq] at h
      obtain ⟨h1, h2⟩ := h
      subst h1 h2
      exact ⟨hm (t2, bucket) (by simp), fun e2 he2 => hm e2 (List.mem_cons_of_mem _ he2)⟩
    · rw [if_neg ht]
      cases hq : mpop rest t with
      | none => intro h; simp at h
      | some pr =>
        obtain ⟨items0, m0⟩ := pr
        intro h
        simp only [Option.some.injEq, Prod.mk.injEq] at h
        obtain ⟨h1, h2⟩ := h
        subst h1 h2
        have hrec := ih t items0 m0 hq (fun e2 he2 => hm e2 (List.mem_cons_of_mem _ he2))
        refine ⟨hrec.1, ?_⟩
        intro e2 he2
        cases he2 with
        | head => exact hm (t2, bucket) (by simp)
        | tail _ hmem => exact hrec.2 e2 hmem

theorem mextend_inv : ∀ (m : Mappings) (t : PyTy) (items : List Value),
    MInv m → (∀ x ∈ items, InvV x) → MInv (mextend m t items) := by
  intro m
  induction m with
  | nil =>
    intro t items hm hi
    intro e he x hx
    simp only [mextend, List.mem_singleton] at he
    subst he
    exact hi x hx
  | cons e rest ih =>
    obtain ⟨t2, bucket⟩ := e
    intro t items hm hi
    simp only [mextend]
    split
    · intro e2 he2 x hx
      cases he2 with
      | head =>
        simp only [List.mem_append] at hx
        cases hx with
        | inl hx2 => exact hm (t2, bucket) (by simp) x hx2
        | inr hx2 => exact hi x hx2
      | tail _ hmem => exact hm e2 (List.mem_cons_of_mem _ hmem) x hx
    · intro e2 he2 x hx
      cases he2 with
      | head => exact hm (t2, bucket) (by simp) x hx
      | tail _ hmem =>
        exact ih t items (fun e3 he3 => hm e3 (List.mem_cons_of_mem _ he3)) hi e2 hmem x hx

theorem redistribute_inv (m : Mappings) (newItems : List Value)
    (hm : MInv m) (hn : ∀ x ∈ newItems, InvV x) : MInv (redistribute m newItems) := by
  simp only [redistribute]
  suffices haux : ∀ (ts : List PyTy) (m0 : Mappings), MInv m0 →
      MInv (ts.foldl (fun acc t => mextend acc t (newItems.filter (fun a => tyOf a == t))) m0) by
    exact haux (typesOf newItems) m hm
  intro ts
  induction ts with
  | nil => intro m0 hm0; exact hm0
  | cons t rest ih =>
    intro m0 hm0
    simp only [List.foldl]
    exact ih _ (mextend_inv m0 t _ hm0 (fun x hx => hn x (List.mem_of_mem_filter hx)))

theorem invV_adder_elim {g : List Value} {sc : Q} {cc : Option Q}
    (h : InvV (.adder g sc cc)) : ∀ x ∈ g, InvV x := by
  cases h with
  | adder _ _ _ _ hg => exact hg

theorem invV_mult_elim {g : List Value} {sc : Q} {cc : Option Q}
    (h : InvV (.multiplier g sc cc)) : ∀ x ∈ g, InvV x := by
  cases h with
  | multiplier _ _ _ hg => exact hg

theorem invV_dice_elim {g : List Value} {c : Nat} {cc : Option Q}
    (h : InvV (.dice g c cc)) : ∀ x ∈ g, InvV x := by
  cases h with
  | dice _ _ _ hg => exact hg

theorem flatten_groups_inv (buckets : List Value)
    (hb : ∀ x ∈ buckets, InvV x)
    (f : Value → List Value × Q)
    (hf : ∀ x ∈ buckets, ∀ y ∈ (f x).1, InvV y) :
    ∀ y ∈ ((buckets.map f).map Prod.fst).flatten, InvV y := by
  intro y hy
  simp only [List.mem_flatten, List.mem_map] at hy
  obtain ⟨l, ⟨p, ⟨x, hx, rfl⟩, rfl⟩, hyl⟩ := hy
  exact hf x hx y hyl

theorem adderFlatten_inv : ∀ (fuel : Nat) (m : Mappings) (scalar : Q) m2 scalar2,
    adderFlatten fuel m scalar = .ok (m2, scalar2) → MInv m → MInv m2 := by
  intro fuel
  induction fuel with
  | zero => intro m scalar m2 scalar2 h; simp [adderFlatten] at h
  | succ n ih =>
    intro m scalar m2 scalar2 h hm
    simp only [adderFlatten] at h
    revert h
    cases hq : mpop m .adderT with
    | none =>
      intro h
      simp only [Except.ok.injEq, Prod.mk.injEq] at h
      obtain ⟨h1, -⟩ := h
      subst h1
      exact hm
    | some pr =>
      obtain ⟨adders, m0⟩ := pr
      intro h
      have hpop := mpop_inv m .adderT adders m0 hq hm
      refine ih _ _ m2 scalar2 h (redistribute_inv m0 _ hpop.2 ?_)
      refine flatten_groups_inv adders hpop.1 _ ?_
      intro x hx y hy
      cases x with
      | adder g sc cc => exact invV_adder_elim (hpop.1 _ hx) y hy
      | die a b c => simp at hy
      | dice a b c => simp at hy
      | multiplier a b c => simp at hy
      | trueDivider a b c => simp at hy
      | modulus a b c => simp at hy
      | roundNode a b c => simp at hy
      | lit q => simp at hy
      | pynone => simp at hy

theorem multFlatten_inv : ∀ (fuel : Nat) (m : Mappings) (scalar : Q) m2 scalar2,
    multFlatten fuel m scalar = .ok (m2, scalar2) → MInv m → MInv m2 := by
  intro fuel
  induction fuel with
  | zero => intro m scalar m2 scalar2 h; simp [multFlatten] at h
  | succ n ih =>
    intro m scalar m2 scalar2 h hm
    simp only [multFlatten] at h
    revert h
    cases hq : mpop m .multiplierT with
    | none =>
      intro h
      simp only [Except.ok.injEq, Prod.mk.injEq] at h
      obtain ⟨h1, -⟩ := h
      subst h1
      exact hm
    | some pr =>
      obtain ⟨mults, m0⟩ := pr
      intro h
      have hpop := mpop_inv m .multiplierT mults m0 hq hm
      refine ih _ _ m2 scalar2 h (redistribute_inv m0 _ hpop.2 ?_)
      refine flatten_groups_inv mults hpop.1 _ ?_
      intro x hx y hy
      cases x with
      | multiplier g sc cc => exact invV_mult_elim (hpop.1 _ hx) y hy
      | die a b c => simp at hy
      | dice a b c => simp at hy
      | adder a b c => simp at hy
      | trueDivider a b c => simp at hy
      | modulus a b c => simp at hy
      | roundNode a b c => simp at hy
      | lit q => simp at hy
      | pynone => simp at hy

theorem multiplierNew_pres (fuel : Nat) (args : List Value) (scalar : Q) (v : Value)
    (h : multiplierNew fuel args scalar = .ok v) (hargs : ∀ x ∈ args, InvV x) :
    InvV v := by
  simp only [multiplierNew] at h
  revert h
  cases hq : multFlatten fuel (mappingsOf args) scalar with
  | error e => intro h; rw [ebindErr] at h; simp at h
  | ok pr =>
    obtain ⟨m, scalar1⟩ := pr
    intro h
    rw [ebindOk] at h
    dsimp only at h
    have hminv := multFlatten_inv fuel (mappingsOf args) scalar m scalar1 hq (mappingsOf_inv args hargs)
    revert h
    cases hq2 : m.foldlM multLeftoverStep (([] : List Value), scalar1) with
    | error e => intro h; rw [ebindErr] at h; simp at h
    | ok pr2 =>
      obtain ⟨merged, scalar2⟩ := pr2
      intro h
      rw [ebindOk] at h
      dsimp only at h
      have hmerged : ∀ x ∈ merged, InvV x := by
        have := foldlM_inv (fun (acc : List Value × Q) => ∀ x ∈ acc.1, InvV x)
          (fun e => ∀ x ∈ e.2, InvV x) _ m (([] : List Value), scalar1) (merged, scalar2) hq2
          (fun e he => hminv e he) ?_ (by simp)
        · exact this
        · intro b a b2 hP hQ hstep
          simp only [multLeftoverStep] at hstep
          revert hstep
          by_cases hr : isRollableTy a.1 = true
          · rw [if_pos hr]
            intro hstep
            simp only [Except.ok.injEq] at hstep
            subst hstep
            intro x hx
            simp only [List.mem_append] at hx
            cases hx with
            | inl h2 => exact hP x h2
            | inr h2 => exact hQ x h2
          · rw [if_neg hr]
            cases hq3 : reduceMulPy a.2 with
            | error e => intro hstep; rw [ebindErr] at hstep; simp at hstep
            | ok p =>
              intro hstep
              rw [ebindOk] at hstep
              revert hstep
              cases p <;> · intro hstep; simp only [Except.ok.injEq] at hstep; subst hstep; exact hP
      revert h
      cases merged with
      | nil =>
        intro h
        simp only [Except.ok.injEq] at h
        subst h
        exact .multiplier _ _ _ (by simp)
      | cons x t =>
        cases t with
        | nil =>
          by_cases hsc : qeq scalar2 (ofInt 1) = true
          · rw [hsc]
            intro h
            simp only [Except.ok.injEq] at h
            subst h
            exact hmerged x (by simp)
          · rw [Bool.not_eq_true] at hsc
            rw [hsc]
            intro h
            simp only [Except.ok.injEq] at h
            subst h
            exact .multiplier _ _ _ hmerged
        | cons y t2 =>
          intro h
          simp only [Except.ok.injEq] at h
          subst h
          exact .multiplier _ _ _ hmerged

theorem pymul_pres (fuel : Nat) (a b : Value) (v : Value)
    (h : pymul fuel a b = .ok v) (ha : InvV a) (hb : InvV b) : InvV v := by
  have hboth : ∀ x ∈ [a, b], InvV x := by
    intro x hx
    simp only [List.mem_cons, List.mem_singleton] at hx
    rcases hx with rfl | rfl | hx
    · exact ha
    · exact hb
    · simp at hx
  cases a with
  | lit qa =>
    cases b with
    | lit qb =>
      simp only [pymul, Except.ok.injEq] at h
      subst h
      exact .lit _
    | pynone => simp [pymul] at h
    | die x y z => exact multiplierNew_pres fuel _ _ v h hboth
    | dice x y z => exact multiplierNew_pres fuel _ _ v h hboth
    | adder x y z => exact multiplierNew_pres fuel _ _ v h hboth
    | multiplier x y z => exact multiplierNew_pres fuel _ _ v h hboth
    | trueDivider x y z => exact multiplierNew_pres fuel _ _ v h hboth
    | modulus x y z => exact multiplierNew_pres fuel _ _ v h hboth
    | roundNode x y z => exact multiplierNew_pres fuel _ _ v h hboth
  | pynone =>
    cases b with
    | lit qb => simp [pymul] at h
    | pynone => simp [pymul] at h
    | die x y z => exact multiplierNew_pres fuel _ _ v h hboth
    | dice x y z => exact multiplierNew_pres fuel _ _ v h hboth
    | adder x y z => exact multiplierNew_pres fuel _ _ v h hboth
    | multiplier x y z => exact multiplierNew_pres fuel _ _ v h hboth
    | trueDivider x y z => exact multiplierNew_pres fuel _ _ v h hboth
    | modulus x y z => exact multiplierNew_pres fuel _ _ v h hboth
    | roundNode x y z => exact multiplierNew_pres fuel _ _ v h hboth
  | die x y z => exact multiplierNew_pres fuel _ _ v h hboth
  | dice x y z => exact multiplierNew_pres fuel _ _ v h hboth
  | adder x y z => exact multiplierNew_pres fuel _ _ v h hboth
  | multiplier x y z => exact multiplierNew_pres fuel _ _ v h hboth
  | trueDivider x y z => exact multiplierNew_pres fuel _ _ v h hboth
  | modulus x y z => exact multiplierNew_pres fuel _ _ v h hboth
  | roundNode x y z => exact multiplierNew_pres fuel _ _ v h hboth

theorem invV_divider_elim {nu de : Value} {cc : Option Q}
    (h : InvV (.trueDivider nu de cc)) : InvV nu ∧ InvV de := by
  cases h with
  | trueDivider _ _ _ h1 h2 => exact ⟨h1, h2⟩

theorem invV_modulus_elim {nu de : Value} {cc : Option Q}
    (h : InvV (.modulus nu de cc)) : InvV nu ∧ InvV de := by
  cases h with
  | modulus _ _ _ h1 h2 => exact ⟨h1, h2⟩


theorem dividerUnwrapNum_inv (numerator : Value) (h : InvV numerator) :
    InvV (dividerUnwrapNum numerator).1 ∧ InvV (dividerUnwrapNum numerator).2 := by
  cases numerator with
  | trueDivider nu de cc => exact invV_divider_elim h
  | die a b c => exact ⟨h, .lit _⟩
  | dice a b c => exact ⟨h, .lit _⟩
  | adder a b c => exact ⟨h, .lit _⟩
  | multiplier a b c => exact ⟨h, .lit _⟩
  | modulus a b c => exact ⟨h, .lit _⟩
  | roundNode a b c => exact ⟨h, .lit _⟩
  | lit q => exact ⟨h, .lit _⟩
  | pynone => exact ⟨h, .lit _⟩

theorem dividerCrossTail_pres (fuel : Nat) (newNum newDen den : Value)
    (nn nd : Value)
    (h : (do
      let nd2 ← pymul fuel newDen den
      pure (newNum, nd2) : Except Err (Value × Value)) = .ok (nn, nd))
    (h1 : InvV newNum) (h2 : InvV newDen) (h3 : InvV den) : InvV nn ∧ InvV nd := by
  revert h
  cases hq : pymul fuel newDen den with
  | error e => intro h; rw [ebindErr] at h; simp at h
  | ok nd0 =>
    intro h
    rw [ebindOk] at h
    simp only [epureOk, Except.ok.injEq, Prod.mk.injEq] at h
    obtain ⟨ha, hb⟩ := h
    subst ha hb
    exact ⟨h1, pymul_pres fuel _ _ _ hq h2 h3⟩

theorem dividerCross_pres (fuel : Nat) (newNum newDen den : Value)
    (nn nd : Value) (h : dividerCross fuel newNum newDen den = .ok (nn, nd))
    (h1 : InvV newNum) (h2 : InvV newDen) (h3 : InvV den) : InvV nn ∧ InvV nd := by
  cases den with
  | trueDivider nu de cc =>
    obtain ⟨hnu, hde⟩ := invV_divider_elim h3
    simp only [dividerCross] at h
    revert h
    cases hq : pymul fuel newNum de with
    | error e => intro h; rw [ebindErr] at h; simp at h
    | ok nn0 =>
      intro h
      rw [ebindOk] at h
      revert h
      cases hq2 : pymul fuel newDen nu with
      | error e => intro h; rw [ebindErr] at h; simp at h
      | ok nd0 =>
        intro h
        rw [ebindOk] at h
        simp only [epureOk, Except.ok.injEq, Prod.mk.injEq] at h
        obtain ⟨ha, hb⟩ := h
        subst ha hb
        exact ⟨pymul_pres fuel _ _ _ hq h1 hde, pymul_pres fuel _ _ _ hq2 h2 hnu⟩
  | die a b c => exact dividerCrossTail_pres fuel newNum newDen _ nn nd h h1 h2 h3
  | dice a b c => exact dividerCrossTail_pres fuel newNum newDen _ nn nd h h1 h2 h3
  | adder a b c => exact dividerCrossTail_pres fuel newNum newDen _ nn nd h h1 h2 h3
  | multiplier a b c => exact dividerCrossTail_pres fuel newNum newDen _ nn nd h h1 h2 h3
  | modulus a b c => exact dividerCrossTail_pres fuel newNum newDen _ nn nd h h1 h2 h3
  | roundNode a b c => exact dividerCrossTail_pres fuel newNum newDen _ nn nd h h1 h2 h3
  | lit q => exact dividerCrossTail_pres fuel newNum newDen _ nn nd h h1 h2 h3
  | pynone => exact dividerCrossTail_pres fuel newNum newDen _ nn nd h h1 h2 h3

theorem dividerFinish_pres (fuel : Nat) (newNum newDen : Value) (s : List Nat)
    (v : Value) (s2 : List Nat) (h : dividerFinish fuel newNum newDen s = .ok (v, s2))
    (h1 : InvV newNum) (h2 : InvV newDen) : InvV v := by
  simp only [dividerFinish] at h
  revert h
  split
  · rename_i gN sN cN gD sD cD
    by_cases hz : qIsZero sD = true
    · rw [if_pos hz]
      intro h
      simp at h
    · rw [if_neg hz]
      cases hq : multiplierNew fuel gN (qdiv sN sD) with
      | error e => intro h; rw [ebindErr] at h; simp at h
      | ok m1 =>
        intro h
        rw [ebindOk] at h
        revert h
        cases hq2 : multiplierNew fuel gD (ofInt 1) with
        | error e => intro h; rw [ebindErr] at h; simp at h
        | ok m2 => intro h; rw [ebindOk] at h; simp at h
  · rename_i hnotboth
    cases newDen with
    | lit q =>
      dsimp only
      by_cases he1 : qeq q (ofInt 1) = true
      · rw [if_pos he1]
        intro h
        simp only [Except.ok.injEq, Prod.mk.injEq] at h
        obtain ⟨ha, -⟩ := h
        subst ha
        exact h1
      · rw [if_neg he1]
        by_cases hz : qIsZero q = true
        · rw [if_pos hz]
          intro h
          simp at h
        · rw [if_neg hz]
          cases hq : multiplierNew fuel [newNum] (qdiv (ofInt 1) q) with
          | error e => intro h; rw [ebindErr] at h; simp at h
          | ok m1 =>
            intro h
            rw [ebindOk] at h
            simp only [Except.ok.injEq, Prod.mk.injEq] at h
            obtain ⟨ha, -⟩ := h
            subst ha
            exact multiplierNew_pres fuel _ _ _ hq (by intro x hx; simp at hx; subst hx; exact h1)
    | pynone => intro h; simp at h
    | die a b c =>
      intro h
      simp only [Except.ok.injEq, Prod.mk.injEq] at h
      obtain ⟨ha, -⟩ := h
      subst ha
      exact .trueDivider _ _ _ h1 h2
    | dice a b c =>
      intro h
      simp only [Except.ok.injEq, Prod.mk.injEq] at h
      obtain ⟨ha, -⟩ := h
      subst ha
      exact .trueDivider _ _ _ h1 h2
    | adder a b c =>
      intro h
      simp only [Except.ok.injEq, Prod.mk.injEq] at h
      obtain ⟨ha, -⟩ := h
      subst ha
      exact .trueDivider _ _ _ h1 h2
    | multiplier a b c =>
      intro h
      simp only [Except.ok.injEq, Prod.mk.injEq] at h
      obtain ⟨ha, -⟩ := h
      subst ha
      exact .trueDivider _ _ _ h1 h2
    | trueDivider a b c =>
      intro h
      simp only [Except.ok.injEq, Prod.mk.injEq] at h
      obtain ⟨ha, -⟩ := h
      subst ha
      exact .trueDivider _ _ _ h1 h2
    | modulus a b c =>
      intro h
      simp only [Except.ok.injEq, Prod.mk.injEq] at h
      obtain ⟨ha, -⟩ := h
      subst ha
      exact .trueDivider _ _ _ h1 h2
    | roundNode a b c =>
      intro h
      simp only [Except.ok.injEq, Prod.mk.injEq] at h
      obtain ⟨ha, -⟩ := h
      subst ha
      exact .trueDivider _ _ _ h1 h2

theorem trueDividerNew_pres (fuel : Nat) (env : Env) (numerator denominator : Value)
    (s : List Nat) (v : Value) (s2 : List Nat)
    (h : trueDividerNew fuel env numerator denominator s = .ok (v, s2))
    (hn : InvV numerator) (hd : InvV denominator) : InvV v := by
  simp only [trueDividerNew] at h
  revert h
  cases hq : boolValue fuel env denominator s with
  | error e => intro h; rw [ebindErr] at h; simp at h
  | ok tr =>
    obtain ⟨b, den1, s1⟩ := tr
    intro h
    rw [ebindOk] at h
    dsimp only at h
    have hden1 : InvV den1 := boolValue_pres fuel env denominator s b den1 s1 hq hd
    revert h
    by_cases hb : b = true
    · subst hb
      rw [if_neg (by simp)]
      have hun := dividerUnwrapNum_inv numerator hn
      cases hq2 : dividerCross fuel (dividerUnwrapNum numerator).1
          (dividerUnwrapNum numerator).2 den1 with
      | error e => intro h; rw [ebindErr] at h; simp at h
      | ok pr =>
        obtain ⟨nn, nd⟩ := pr
        intro h
        rw [ebindOk] at h
        dsimp only at h
        have hcr := dividerCross_pres fuel _ _ den1 nn nd hq2 hun.1 hun.2 hden1
        exact dividerFinish_pres fuel nn nd s1 v s2 h hcr.1 hcr.2
    · rw [Bool.not_eq_true] at hb
      subst hb
      intro h
      simp at h

theorem iterateSeq_inv (v : Value) (ys : List Value) (h : iterateSeq v = .ok ys) :
    ∀ y ∈ ys, InvV y := by
  intro y hy
  cases v <;> simp only [iterateSeq, Except.ok.injEq] at h
  case dice g c cc =>
    subst h
    have hye := List.eq_of_mem_replicate hy
    subst hye
    exact .pynoneI
  case adder g sc cc =>
    subst h
    have hye := List.eq_of_mem_replicate hy
    subst hye
    exact .pynoneI
  case multiplier g sc cc =>
    subst h
    have hye := List.eq_of_mem_replicate hy
    subst hye
    exact .pynoneI
  all_goals simp at h


theorem diceBucketStep_pres (fuel : Nat) (env : Env)
    (recur : Req → List Nat → Except Err (Value × List Nat))
    (hrec : ∀ req s v s2, recur req s = .ok (v, s2) → ReqInv req → InvV v)
    (acc : List (Value × Value) × List Value × List Nat) (it : Value) (acc2 : List (Value × Value) × List Value × List Nat)
    (h : diceBucketStep fuel env recur acc it = .ok acc2)
    (hP : ∀ x ∈ acc.2.1, InvV x) (hQ : InvV it) : ∀ x ∈ acc2.2.1, InvV x := by
  revert h
  cases it with
  | dice g cv cc =>
    cases g with
    | nil => intro h; simp [diceBucketStep] at h
    | cons g0 grest =>
      simp only [diceBucketStep]
      cases hc : recur (.mkCopy g0) acc.2.2 with
      | error e => intro h; rw [ebindErr] at h; simp at h
      | ok pr =>
        obtain ⟨d, s0⟩ := pr
        intro h
        rw [ebindOk] at h
        dsimp only at h
        revert h
        cases hc2 : setInsert fuel env acc.2.1 d s0 with
        | error e => intro h; rw [ebindErr] at h; simp at h
        | ok pr2 =>
          obtain ⟨reps2, s3⟩ := pr2
          intro h
          rw [ebindOk] at h
          simp only [epureOk, Except.ok.injEq] at h
          subst h
          have hds : InvV d := hrec _ _ _ _ hc (invV_dice_elim hQ g0 (by simp))
          exact setInsert_pres fuel env acc.2.1 d s0 reps2 s3 hc2 hP hds
  | die a1 a2 a3 => intro h; simp [diceBucketStep] at h
  | adder a1 a2 a3 => intro h; simp [diceBucketStep] at h
  | multiplier a1 a2 a3 => intro h; simp [diceBucketStep] at h
  | trueDivider a1 a2 a3 => intro h; simp [diceBucketStep] at h
  | modulus a1 a2 a3 => intro h; simp [diceBucketStep] at h
  | roundNode a1 a2 a3 => intro h; simp [diceBucketStep] at h
  | lit q => intro h; simp [diceBucketStep] at h
  | pynone => intro h; simp [diceBucketStep] at h

theorem diceCountStep_pres (fuel : Nat) (pairs : List (Value × Value))
    (acc : List (Value × Nat)) (rep : Value) (acc2 : List (Value × Nat))
    (h : diceCountStep fuel pairs acc rep = .ok acc2)
    (hP : ∀ p ∈ acc, InvV p.1) (hQ : InvV rep) : ∀ p ∈ acc2, InvV p.1 := by
  simp only [diceCountStep] at h
  revert h
  cases hc : pairs.foldlM (diceCountOne fuel rep) 0 with
  | error e => intro h; rw [ebindErr] at h; simp at h
  | ok cnt =>
    intro h
    rw [ebindOk] at h
    simp only [epureOk, Except.ok.injEq] at h
    subst h
    intro p hp
    simp only [List.mem_append, List.mem_singleton] at hp
    cases hp with
    | inl h2 => exact hP p h2
    | inr h2 => subst h2; exact hQ

theorem diceBucket_pres (fuel : Nat) (env : Env)
    (recur : Req → List Nat → Except Err (Value × List Nat))
    (hrec : ∀ req s v s2, recur req s = .ok (v, s2) → ReqInv req → InvV v)
    (diceItems : List Value) (s : List Nat) (items : List (Value × Nat)) (s2 : List Nat)
    (h : diceBucket fuel env recur diceItems s = .ok (items, s2))
    (hd : ∀ x ∈ diceItems, InvV x) : ∀ p ∈ items, InvV p.1 := by
  simp only [diceBucket] at h
  revert h
  cases hq : diceItems.foldlM (diceBucketStep fuel env recur)
      (([] : List (Value × Value)), ([] : List Value), s) with
  | error e => intro h; rw [ebindErr] at h; simp at h
  | ok tr =>
    obtain ⟨pairs, reps, s1⟩ := tr
    intro h
    rw [ebindOk] at h
    dsimp only at h
    have hreps : ∀ x ∈ reps, InvV x :=
      foldlM_inv
        (fun (acc : List (Value × Value) × List Value × List Nat) => ∀ x ∈ acc.2.1, InvV x)
        (fun it => InvV it) _ diceItems _ _ hq hd
        (fun b a b2 hP hQ hstep => diceBucketStep_pres fuel env recur hrec b a b2 hstep hP hQ)
        (by simp)
    revert h
    cases hq2 : reps.foldlM (diceCountStep fuel pairs) ([] : List (Value × Nat)) with
    | error e => intro h; rw [ebindErr] at h; simp at h
    | ok items0 =>
      intro h
      rw [ebindOk] at h
      simp only [Except.ok.injEq, Prod.mk.injEq] at h
      obtain ⟨h1, -⟩ := h
      subst h1
      exact foldlM_inv (fun (acc : List (Value × Nat)) => ∀ p ∈ acc, InvV p.1)
        (fun rep => InvV rep) _ reps _ _ hq2 hreps
        (fun b a b2 hP hQ hstep => diceCountStep_pres fuel pairs b a b2 hstep hP hQ)
        (by simp)

theorem dieBucketStep_pres (fuel : Nat) (env : Env) (dieItems : List Value)
    (acc : List (Value × Nat) × List Nat) (rep : Value) (acc2 : List (Value × Nat) × List Nat)
    (h : dieBucketStep fuel env dieItems acc rep = .ok acc2)
    (hP : ∀ p ∈ acc.1, InvV p.1) (hQ : InvV rep) : ∀ p ∈ acc2.1, InvV p.1 := by
  simp only [dieBucketStep] at h
  revert h
  cases hc : dieItems.foldlM (dieCountOne fuel rep) 0 with
  | error e => intro h; rw [ebindErr] at h; simp at h
  | ok cnt =>
    intro h
    rw [ebindOk] at h
    revert h
    cases hc2 : dictGet fuel env acc.1 rep acc.2 with
    | error e => intro h; rw [ebindErr] at h; simp at h
    | ok tr =>
      obtain ⟨prev, items2, rep2, s2⟩ := tr
      intro h
      rw [ebindOk] at h
      dsimp only at h
      have hget := dictGet_pres fuel env acc.1 rep acc.2 prev items2 rep2 s2 hc2 hP hQ
      revert h
      cases hc3 : dictSet fuel env items2 rep2 (prev.getD 0 + cnt) s2 with
      | error e => intro h; rw [ebindErr] at h; simp at h
      | ok tr2 =>
        obtain ⟨items3, s3⟩ := tr2
        intro h
        rw [ebindOk] at h
        simp only [epureOk, Except.ok.injEq] at h
        subst h
        exact dictSet_pres fuel env items2 rep2 (prev.getD 0 + cnt) s2 items3 s3 hc3
          hget.1 hget.2

theorem dieBucket_pres (fuel : Nat) (env : Env) (dieItems : List Value)
    (items0 : List (Value × Nat)) (s : List Nat) (items : List (Value × Nat)) (s2 : List Nat)
    (h : dieBucket fuel env dieItems items0 s = .ok (items, s2))
    (hd : ∀ x ∈ dieItems, InvV x) (h0 : ∀ p ∈ items0, InvV p.1) :
    ∀ p ∈ items, InvV p.1 := by
  simp only [dieBucket] at h
  revert h
  cases hq : setBuild fuel env dieItems s with
  | error e => intro h; rw [ebindErr] at h; simp at h
  | ok tr =>
    obtain ⟨reps, s1⟩ := tr
    intro h
    rw [ebindOk] at h
    dsimp only at h
    have hreps := setBuild_pres fuel env dieItems s reps s1 hq hd
    have := foldlM_inv (fun (acc : List (Value × Nat) × List Nat) => ∀ p ∈ acc.1, InvV p.1)
      (fun rep => InvV rep) _ reps (items0, s1) (items, s2) h hreps
      (fun b a b2 hP hQ hstep => dieBucketStep_pres fuel env dieItems b a b2 hstep hP hQ)
      h0
    exact this

theorem multElems_inv (ms : Q) (multItems : List Value) (elems : List Value)
    (h : multItems.foldlM (multElemsItem ms) ([] : List Value) = .ok elems) :
    ∀ x ∈ elems, InvV x := by
  refine foldlM_inv (fun (acc : List Value) => ∀ x ∈ acc, InvV x) (fun _ => True)
    _ multItems _ _ h (fun _ _ => trivial) ?_ (by simp)
  intro b a b2 hP _ hstep
  revert hstep
  cases a with
  | multiplier g sc cc =>
    simp only [multElemsItem]
    intro hstep
    refine foldlM_inv (fun (acc : List Value) => ∀ x ∈ acc, InvV x) (fun _ => True)
      _ g _ _ hstep (fun _ _ => trivial) ?_ hP
    intro b3 a3 b4 hP3 _ hstep3
    simp only [multMemberStep] at hstep3
    revert hstep3
    cases hi : iterateSeq a3 with
    | error e => intro hstep3; rw [ebindErr] at hstep3; simp at hstep3
    | ok ys =>
      intro hstep3
      rw [ebindOk] at hstep3
      simp only [epureOk, Except.ok.injEq] at hstep3
      subst hstep3
      intro x hx
      simp only [List.mem_append] at hx
      cases hx with
      | inl h2 => exact hP3 x h2
      | inr h2 =>
        revert h2
        split
        · intro h2; exact iterateSeq_inv a3 ys hi x h2
        · intro h2; simp at h2
  | die a1 a2 a3 =>
    simp only [multElemsItem, epureOk]
    intro hstep
    simp only [Except.ok.injEq] at hstep
    subst hstep
    exact hP
  | dice a1 a2 a3 =>
    simp only [multElemsItem, epureOk]
    intro hstep
    simp only [Except.ok.injEq] at hstep
    subst hstep
    exact hP
  | adder a1 a2 a3 =>
    simp only [multElemsItem, epureOk]
    intro hstep
    simp only [Except.ok.injEq] at hstep
    subst hstep
    exact hP
  | trueDivider a1 a2 a3 =>
    simp only [multElemsItem, epureOk]
    intro hstep
    simp only [Except.ok.injEq] at hstep
    subst hstep
    exact hP
  | modulus a1 a2 a3 =>
    simp only [multElemsItem, epureOk]
    intro hstep
    simp only [Except.ok.injEq] at hstep
    subst hstep
    exact hP
  | roundNode a1 a2 a3 =>
    simp only [multElemsItem, epureOk]
    intro hstep
    simp only [Except.ok.injEq] at hstep
    subst hstep
    exact hP
  | lit q =>
    simp only [multElemsItem, epureOk]
    intro hstep
    simp only [Except.ok.injEq] at hstep
    subst hstep
    exact hP
  | pynone =>
    simp only [multElemsItem, epureOk]
    intro hstep
    simp only [Except.ok.injEq] at hstep
    subst hstep
    exact hP

theorem multBucketStep_pres (fuel : Nat)
    (recur : Req → List Nat → Except Err (Value × List Nat))
    (hrec : ∀ req s v s2, recur req s = .ok (v, s2) → ReqInv req → InvV v)
    (multItems : List Value) (acc : List Value × List Nat) (ms : Q)
    (acc2 : List Value × List Nat)
    (h : multBucketStep fuel recur multItems acc ms = .ok acc2)
    (hP : ∀ x ∈ acc.1, InvV x) : ∀ x ∈ acc2.1, InvV x := by
  simp only [multBucketStep] at h
  revert h
  cases hq : multItems.foldlM (multElemsItem ms) ([] : List Value) with
  | error e => intro h; rw [ebindErr] at h; simp at h
  | ok elems =>
    intro h
    rw [ebindOk] at h
    revert h
    cases hq2 : recur (.mkAdder elems (ofInt 0)) acc.2 with
    | error e => intro h; rw [ebindErr] at h; simp at h
    | ok pr =>
      obtain ⟨inner, s2⟩ := pr
      intro h
      rw [ebindOk] at h
      dsimp only at h
      have hinner : InvV inner := hrec _ _ _ _ hq2 (multElems_inv ms multItems elems hq)
      revert h
      cases hq3 : multiplierNew fuel [inner] ms with
      | error e => intro h; rw [ebindErr] at h; simp at h
      | ok mval =>
        intro h
        rw [ebindOk] at h
        simp only [epureOk, Except.ok.injEq] at h
        subst h
        have hmval : InvV mval := multiplierNew_pres fuel _ _ _ hq3
          (by intro x hx; simp at hx; subst hx; exact hinner)
        intro x hx
        simp only [List.mem_append, List.mem_singleton] at hx
        cases hx with
        | inl h2 => exact hP x h2
        | inr h2 => subst h2; exact hmval

theorem multBucket_pres (fuel : Nat) (env : Env)
    (recur : Req → List Nat → Except Err (Value × List Nat))
    (hrec : ∀ req s v s2, recur req s = .ok (v, s2) → ReqInv req → InvV v)
    (multItems : List Value) (merged0 : List Value) (s : List Nat)
    (merged : List Value) (s2 : List Nat)
    (h : multBucket fuel env recur multItems merged0 s = .ok (merged, s2))
    (h0 : ∀ x ∈ merged0, InvV x) : ∀ x ∈ merged, InvV x := by
  simp only [multBucket] at h
  exact foldlM_inv (fun (acc : List Value × List Nat) => ∀ x ∈ acc.1, InvV x)
    (fun _ => True) _ (multScalarsOf multItems) (merged0, s) (merged, s2) h
    (fun _ _ => trivial)
    (fun b a b2 hP _ hstep => multBucketStep_pres fuel recur hrec multItems b a b2 hstep hP)
    h0

theorem mergedEmitStep_pres (recur : Req → List Nat → Except Err (Value × List Nat))
    (hrec : ∀ req s v s2, recur req s = .ok (v, s2) → ReqInv req → InvV v)
    (acc : List Value × List Nat) (e : Value × Nat) (acc2 : List Value × List Nat)
    (h : mergedEmitStep recur acc e = .ok acc2)
    (hP : ∀ x ∈ acc.1, InvV x) (hQ : InvV e.1) : ∀ x ∈ acc2.1, InvV x := by
  simp only [mergedEmitStep] at h
  revert h
  by_cases hc : 1 < e.2
  · rw [if_pos hc]
    cases hq : recur (.mkDice (e.2 : Int) e.1 0) acc.2 with
    | error er => intro h; rw [ebindErr] at h; simp at h
    | ok pr =>
      obtain ⟨g, s2⟩ := pr
      intro h
      rw [ebindOk] at h
      simp only [epureOk, Except.ok.injEq] at h
      subst h
      intro x hx
      simp only [List.mem_append, List.mem_singleton] at hx
      cases hx with
      | inl h2 => exact hP x h2
      | inr h2 => subst h2; exact hrec _ _ _ _ hq hQ
  · rw [if_neg hc]
    intro h
    simp only [epureOk, Except.ok.injEq] at h
    subst h
    intro x hx
    simp only [List.mem_append, List.mem_singleton] at hx
    cases hx with
    | inl h2 => exact hP x h2
    | inr h2 => subst h2; exact hQ

theorem addLeftoverStep_pres (acc : List Value × Q) (e : PyTy × List Value)
    (acc2 : List Value × Q) (h : addLeftoverStep acc e = .ok acc2)
    (hP : ∀ x ∈ acc.1, InvV x) (hQ : ∀ x ∈ e.2, InvV x) : ∀ x ∈ acc2.1, InvV x := by
  simp only [addLeftoverStep] at h
  revert h
  by_cases hr : isRollableTy e.1 = true
  · rw [if_pos hr]
    intro h
    simp only [Except.ok.injEq] at h
    subst h
    intro x hx
    simp only [List.mem_append] at hx
    cases hx with
    | inl h2 => exact hP x h2
    | inr h2 => exact hQ x h2
  · rw [if_neg hr]
    cases hq : sumPyList e.2 with
    | error er => intro h; rw [ebindErr] at h; simp at h
    | ok q =>
      intro h
      rw [ebindOk] at h
      simp only [Except.ok.injEq] at h
      subst h
      exact hP

theorem adderDicePhase_pres (fuel : Nat) (env : Env)
    (recur : Req → List Nat → Except Err (Value × List Nat))
    (hrec : ∀ req s v s2, recur req s = .ok (v, s2) → ReqInv req → InvV v)
    (m : Mappings) (s : List Nat) (items : List (Value × Nat)) (m2 : Mappings)
    (s2 : List Nat) (h : adderDicePhase fuel env recur m s = .ok (items, m2, s2))
    (hm : MInv m) : (∀ p ∈ items, InvV p.1) ∧ MInv m2 := by
  simp only [adderDicePhase] at h
  revert h
  cases hp : mpop m .diceT with
  | none =>
    intro h
    simp only [pure, Except.pure, Except.ok.injEq, Prod.mk.injEq] at h
    obtain ⟨h1, h2, -⟩ := h
    subst h1 h2
    exact ⟨by simp, hm⟩
  | some pr =>
    obtain ⟨diceItems, m3⟩ := pr
    have hpop := mpop_inv m .diceT diceItems m3 hp hm
    intro h
    dsimp only at h
    revert h
    cases hb : diceBucket fuel env recur diceItems s with
    | error e => intro h; rw [ebindErr] at h; simp at h
    | ok tr =>
      obtain ⟨items0, s0⟩ := tr
      intro h
      rw [ebindOk] at h
      simp only [epureOk, Except.ok.injEq, Prod.mk.injEq] at h
      obtain ⟨h1, h2, -⟩ := h
      subst h1 h2
      exact ⟨diceBucket_pres fuel env recur hrec diceItems s items0 s0 hb hpop.1, hpop.2⟩

theorem adderDiePhase_pres (fuel : Nat) (env : Env) (items0 : List (Value × Nat))
    (m : Mappings) (s : List Nat) (items : List (Value × Nat)) (m2 : Mappings)
    (s2 : List Nat) (h : adderDiePhase fuel env items0 m s = .ok (items, m2, s2))
    (h0 : ∀ p ∈ items0, InvV p.1) (hm : MInv m) :
    (∀ p ∈ items, InvV p.1) ∧ MInv m2 := by
  simp only [adderDiePhase] at h
  revert h
  cases hp : mpop m .dieT with
  | none =>
    intro h
    simp only [pure, Except.pure, Except.ok.injEq, Prod.mk.injEq] at h
    obtain ⟨h1, h2, -⟩ := h
    subst h1 h2
    exact ⟨h0, hm⟩
  | some pr =>
    obtain ⟨dieItems, m3⟩ := pr
    have hpop := mpop_inv m .dieT dieItems m3 hp hm
    intro h
    dsimp only at h
    revert h
    cases hb : dieBucket fuel env dieItems items0 s with
    | error e => intro h; rw [ebindErr] at h; simp at h
    | ok tr =>
      obtain ⟨items1, s1⟩ := tr
      intro h
      rw [ebindOk] at h
      simp only [epureOk, Except.ok.injEq, Prod.mk.injEq] at h
      obtain ⟨h1, h2, -⟩ := h
      subst h1 h2
      exact ⟨dieBucket_pres fuel env dieItems items0 s items1 s1 hb hpop.1 h0, hpop.2⟩

theorem adderMultPhase_pres (fuel : Nat) (env : Env)
    (recur : Req → List Nat → Except Err (Value × List Nat))
    (hrec : ∀ req s v s2, recur req s = .ok (v, s2) → ReqInv req → InvV v)
    (merged0 : List Value) (m : Mappings) (s : List Nat) (merged : List Value)
    (m2 : Mappings) (s2 : List Nat)
    (h : adderMultPhase fuel env recur merged0 m s = .ok (merged, m2, s2))
    (h0 : ∀ x ∈ merged0, InvV x) (hm : MInv m) :
    (∀ x ∈ merged, InvV x) ∧ MInv m2 := by
  simp only [adderMultPhase] at h
  revert h
  cases hp : mpop m .multiplierT with
  | none =>
    intro h
    simp only [pure, Except.pure, Except.ok.injEq, Prod.mk.injEq] at h
    obtain ⟨h1, h2, -⟩ := h
    subst h1 h2
    exact ⟨h0, hm⟩
  | some pr =>
    obtain ⟨multItems, m3⟩ := pr
    have hpop := mpop_inv m .multiplierT multItems m3 hp hm
    intro h
    dsimp only at h
    revert h
    cases hb : multBucket fuel env recur multItems merged0 s with
    | error e => intro h; rw [ebindErr] at h; simp at h
    | ok tr =>
      obtain ⟨merged1, s1⟩ := tr
      intro h
      rw [ebindOk] at h
      simp only [epureOk, Except.ok.injEq, Prod.mk.injEq] at h
      obtain ⟨h1, h2, -⟩ := h
      subst h1 h2
      exact ⟨multBucket_pres fuel env recur hrec multItems merged0 s merged1 s1 hb h0, hpop.2⟩

theorem adderBody_pres (fuel : Nat) (env : Env)
    (recur : Req → List Nat → Except Err (Value × List Nat))
    (hrec : ∀ req s v s2, recur req s = .ok (v, s2) → ReqInv req → InvV v)
    (args : List Value) (scalar : Q) (s : List Nat) (v : Value) (s2 : List Nat)
    (h : adderBody fuel env recur args scalar s = .ok (v, s2))
    (hargs : ∀ x ∈ args, InvV x) : InvV v := by
  simp only [adderBody] at h
  revert h
  cases hq0 : adderFlatten fuel (mappingsOf args) scalar with
  | error e => intro h; rw [ebindErr] at h; simp at h
  | ok pr0 =>
    obtain ⟨m0, scalar0⟩ := pr0
    intro h
    rw [ebindOk] at h
    dsimp only at h
    have hm0 : MInv m0 := adderFlatten_inv fuel _ scalar m0 scalar0 hq0 (mappingsOf_inv args hargs)
    revert h
    cases hq1 : adderDicePhase fuel env recur m0 s with
    | error e => intro h; rw [ebindErr] at h; simp at h
    | ok tr1 =>
      obtain ⟨items1, m1, s1⟩ := tr1
      intro h
      rw [ebindOk] at h
      dsimp only at h
      obtain ⟨hitems1, hm1⟩ :=
        adderDicePhase_pres fuel env recur hrec m0 s items1 m1 s1 hq1 hm0
      revert h
      cases hq2 : adderDiePhase fuel env items1 m1 s1 with
      | error e => intro h; rw [ebindErr] at h; simp at h
      | ok tr2 =>
        obtain ⟨items2, m2, s2a⟩ := tr2
        intro h
        rw [ebindOk] at h
        dsimp only at h
        obtain ⟨hitems2, hm2⟩ :=
          adderDiePhase_pres fuel env items1 m1 s1 items2 m2 s2a hq2 hitems1 hm1
        revert h
        cases hq3 : items2.foldlM (mergedEmitStep recur) (([] : List Value), s2a) with
        | error e => intro h; rw [ebindErr] at h; simp at h
        | ok tr3 =>
          obtain ⟨merged3, s3⟩ := tr3
          intro h
          rw [ebindOk] at h
          dsimp only at h
          have hmerged3 : ∀ x ∈ merged3, InvV x :=
            foldlM_inv (fun (acc : List Value × List Nat) => ∀ x ∈ acc.1, InvV x)
              (fun e => InvV e.1) _ items2 _ _ hq3 hitems2
              (fun b a b2 hP hQ hstep => mergedEmitStep_pres recur hrec b a b2 hstep hP hQ)
              (by simp)
          revert h
          cases hq4 : adderMultPhase fuel env recur merged3 m2 s3 with
          | error e => intro h; rw [ebindErr] at h; simp at h
          | ok tr4 =>
            obtain ⟨merged4, m4, s4⟩ := tr4
            intro h
            rw [ebindOk] at h
            dsimp only at h
            obtain ⟨hmerged4, hm4⟩ :=
              adderMultPhase_pres fuel env recur hrec merged3 m2 s3 merged4 m4 s4 hq4
                hmerged3 hm2
            revert h
            cases hq5 : m4.foldlM addLeftoverStep (merged4, scalar0) with
            | error e => intro h; rw [ebindErr] at h; simp at h
            | ok tr5 =>
              obtain ⟨merged5, scalar5⟩ := tr5
              intro h
              rw [ebindOk] at h
              dsimp only at h
              have hmerged5 : ∀ x ∈ merged5, InvV x :=
                foldlM_inv (fun (acc : List Value × Q) => ∀ x ∈ acc.1, InvV x)
                  (fun e => ∀ x ∈ e.2, InvV x) _ m4 _ _ hq5 (fun e he => hm4 e he)
                  (fun b a b2 hP hQ hstep => addLeftoverStep_pres b a b2 hstep hP hQ)
                  hmerged4
              revert h
              cases hml : merged5 with
              | nil =>
                intro h
                dsimp only at h
                simp only [Except.ok.injEq, Prod.mk.injEq] at h
                obtain ⟨h1, -⟩ := h
                subst h1
                exact .adder _ _ _ (by simp) (by simp)
              | cons a tl =>
                cases tl with
                | nil =>
                  by_cases hz : qIsZero scalar5 = true
                  · rw [hz]
                    intro h
                    dsimp only at h
                    simp only [Except.ok.injEq, Prod.mk.injEq] at h
                    obtain ⟨h1, -⟩ := h
                    subst h1
                    refine hmerged5 _ ?_
                    rw [hml]
                    simp
                  · rw [Bool.not_eq_true] at hz
                    rw [hz]
                    intro h
                    dsimp only at h
                    simp only [Except.ok.injEq, Prod.mk.injEq] at h
                    obtain ⟨h1, -⟩ := h
                    subst h1
                    refine .adder _ _ _ ?_ ?_
                    · rintro ⟨-, hzz⟩
                      rw [hz] at hzz
                      exact Bool.noConfusion hzz
                    · intro x hx
                      exact hmerged5 x (by rw [hml]; exact hx)
                | cons b tl2 =>
                  intro h
                  dsimp only at h
                  simp only [Except.ok.injEq, Prod.mk.injEq] at h
                  obtain ⟨h1, -⟩ := h
                  subst h1
                  refine .adder _ _ _ ?_ ?_
                  · rintro ⟨hlen, -⟩
                    simp at hlen
                  · intro x hx
                    exact hmerged5 x (by rw [hml]; exact hx)

theorem ebind_ok_iff {α β : Type} (x : Except Err α) (f : α → Except Err β) (b : β) :
    (x >>= f) = .ok b ↔ ∃ a, x = .ok a ∧ f a = .ok b := by
  cases x with
  | error e =>
    rw [ebindErr]
    simp
  | ok a =>
    rw [ebindOk]
    constructor
    · intro h
      exact ⟨a, rfl, h⟩
    · rintro ⟨a2, ha, h⟩
      injection ha with ha
      subst ha
      exact h

theorem dieNew_inv (q : Q) (c : Nat) (d : Value) (h : dieNew q c = .ok d) : InvV d := by
  simp only [dieNew] at h
  revert h
  split
  · intro h
    simp at h
  · intro h
    simp only [Except.ok.injEq] at h
    subst h
    exact .die _ _ _

theorem roundCall_some_ne (e : Value) (nd : Int) (r : Value) :
    roundCall e (some nd) ≠ .ok r := by
  cases e <;> simp [roundCall]

theorem copyOneStep_pres (recur : Req → List Nat → Except Err (Value × List Nat))
    (hrec : ∀ req s v s2, recur req s = .ok (v, s2) → ReqInv req → InvV v)
    (acc : List Value × List Nat) (x : Value) (acc2 : List Value × List Nat)
    (h : copyOneStep recur acc x = .ok acc2) (hP : ∀ y ∈ acc.1, InvV y)
    (hx : InvV x) : ∀ y ∈ acc2.1, InvV y := by
  simp only [copyOneStep] at h
  rw [ebind_ok_iff] at h
  obtain ⟨pr, hq, h⟩ := h
  obtain ⟨c, s2⟩ := pr
  dsimp only at h
  simp only [epureOk, Except.ok.injEq] at h
  subst h
  intro y hy
  simp only [List.mem_append, List.mem_singleton] at hy
  rcases hy with hy | rfl
  · exact hP y hy
  · exact hrec _ _ _ _ hq hx

theorem copyOperand_pres (recur : Req → List Nat → Except Err (Value × List Nat))
    (hrec : ∀ req s v s2, recur req s = .ok (v, s2) → ReqInv req → InvV v)
    (x : Value) (s : List Nat) (v : Value) (s2 : List Nat)
    (h : copyOperand recur x s = .ok (v, s2)) (hx : InvV x) : InvV v := by
  simp only [copyOperand] at h
  revert h
  cases hxeq : x <;>
    (intro h
     dsimp only at h
     first
       | (simp only [Except.ok.injEq, Prod.mk.injEq] at h
          obtain ⟨h1, -⟩ := h
          subst h1
          exact hxeq ▸ hx)
       | exact hrec _ _ _ _ h (hxeq ▸ hx))

theorem modOpt_pres (fuel : Nat) (env : Env)
    (recur : Req → List Nat → Except Err (Value × List Nat))
    (hrec : ∀ req s v s2, recur req s = .ok (v, s2) → ReqInv req → InvV v)
    (rolls sides : Nat) (q : Q) (newNum newDen : Value) (s : List Nat)
    (v : Value) (s2 : List Nat)
    (h : modOpt fuel env recur rolls sides q newNum newDen s = .ok (v, s2))
    (hnn : InvV newNum) (hnd : InvV newDen) : InvV v := by
  simp only [modOpt] at h
  revert h
  split
  · intro h
    rw [ebind_ok_iff] at h
    obtain ⟨d, hq1, h⟩ := h
    rw [ebind_ok_iff] at h
    obtain ⟨pr, hq2, h⟩ := h
    obtain ⟨grp, s3⟩ := pr
    dsimp only at h
    refine hrec _ _ _ _ h ?_
    intro y hy
    simp only [List.mem_cons, List.mem_singleton] at hy
    rcases hy with rfl | rfl | hy
    · exact hrec _ _ _ _ hq2 (dieNew_inv q 0 d hq1)
    · exact .lit _
    · cases hy
  · intro h
    simp only [Except.ok.injEq, Prod.mk.injEq] at h
    obtain ⟨h1, -⟩ := h
    subst h1
    exact .modulus _ _ _ hnn hnd

theorem modUnwrapNum_inv (numerator : Value) (h : InvV numerator) :
    InvV (modUnwrapNum numerator).1 ∧ InvV (modUnwrapNum numerator).2 := by
  cases h with
  | die s c cc => exact ⟨.die _ _ _, .lit _⟩
  | dice g c cc hg => exact ⟨.dice _ _ _ hg, .lit _⟩
  | adder g sc cc hl hg => exact ⟨.adder _ _ _ hl hg, .lit _⟩
  | multiplier g sc cc hg => exact ⟨.multiplier _ _ _ hg, .lit _⟩
  | trueDivider nu de cc h1 h2 => exact ⟨.trueDivider _ _ _ h1 h2, .lit _⟩
  | modulus nu de cc h1 h2 => exact ⟨h1, h2⟩
  | roundNode e nd cc h1 => exact ⟨.roundNode _ _ _ h1, .lit _⟩
  | lit q => exact ⟨.lit _, .lit _⟩
  | pynoneI => exact ⟨.pynoneI, .lit _⟩

theorem modCross_pres (fuel : Nat) (denominator newNum newDen : Value)
    (nn nd : Value) (h : modCross fuel denominator newNum newDen = .ok (nn, nd))
    (hde : InvV denominator) (h1 : InvV newNum) (h2 : InvV newDen) :
    InvV nn ∧ InvV nd := by
  simp only [modCross] at h
  revert h
  cases hdeneq : denominator
  case modulus nu de cc =>
    obtain ⟨hnu, hdeI⟩ := invV_modulus_elim (hdeneq ▸ hde)
    intro h
    rw [ebind_ok_iff] at h
    obtain ⟨ndv, hq1, h⟩ := h
    rw [ebind_ok_iff] at h
    obtain ⟨nnv, hq2, h⟩ := h
    simp only [epureOk, Except.ok.injEq, Prod.mk.injEq] at h
    obtain ⟨ha, hb⟩ := h
    subst ha hb
    exact ⟨pymul_pres _ _ _ _ hq2 h1 hdeI, pymul_pres _ _ _ _ hq1 h2 hnu⟩
  all_goals
    (intro h
     rw [ebind_ok_iff] at h
     obtain ⟨ndv, hq1, h⟩ := h
     simp only [epureOk, Except.ok.injEq, Prod.mk.injEq] at h
     obtain ⟨ha, hb⟩ := h
     subst ha hb
     exact ⟨h1, pymul_pres _ _ _ _ hq1 h2 (hdeneq ▸ hde)⟩)

theorem modFinish_pres (fuel : Nat) (env : Env)
    (recur : Req → List Nat → Except Err (Value × List Nat))
    (hrec : ∀ req s v s2, recur req s = .ok (v, s2) → ReqInv req → InvV v)
    (numerator denominator newNum newDen : Value) (s : List Nat)
    (v : Value) (s2 : List Nat)
    (h : modFinish fuel env recur numerator denominator newNum newDen s = .ok (v, s2))
    (hnn : InvV newNum) (hnd : InvV newDen) : InvV v := by
  simp only [modFinish] at h
  revert h
  cases hnumeq : numerator
  case dice g c cc =>
    cases hdeneq : denominator
    case lit q =>
      cases g with
      | nil =>
        intro h
        simp at h
      | cons g0 gt =>
        intro h
        dsimp only at h
        rw [ebind_ok_iff] at h
        obtain ⟨pr, hq1, h⟩ := h
        obtain ⟨d0, s3⟩ := pr
        dsimp only at h
        revert h
        cases d0
        case die sd c2 cc2 =>
          intro h
          exact modOpt_pres fuel env recur hrec _ sd q newNum newDen s3 v s2 h hnn hnd
        all_goals (intro h; simp at h)
    all_goals
      (intro h
       dsimp only at h
       simp only [Except.ok.injEq, Prod.mk.injEq] at h
       obtain ⟨h1, -⟩ := h
       subst h1
       exact .modulus _ _ _ hnn hnd)
  case die sd c cc =>
    cases hdeneq : denominator
    case lit q =>
      intro h
      exact modOpt_pres fuel env recur hrec 1 sd q newNum newDen s v s2 h hnn hnd
    all_goals
      (intro h
       dsimp only at h
       simp only [Except.ok.injEq, Prod.mk.injEq] at h
       obtain ⟨h1, -⟩ := h
       subst h1
       exact .modulus _ _ _ hnn hnd)
  all_goals
    (intro h
     dsimp only at h
     simp only [Except.ok.injEq, Prod.mk.injEq] at h
     obtain ⟨h1, -⟩ := h
     subst h1
     exact .modulus _ _ _ hnn hnd)

theorem modBody_pres (fuel : Nat) (env : Env)
    (recur : Req → List Nat → Except Err (Value × List Nat))
    (hrec : ∀ req s v s2, recur req s = .ok (v, s2) → ReqInv req → InvV v)
    (numerator denominator : Value) (s : List Nat) (v : Value) (s2 : List Nat)
    (h : modBody fuel env recur numerator denominator s = .ok (v, s2))
    (hnum : InvV numerator) (hden : InvV denominator) : InvV v := by
  simp only [modBody] at h
  revert h
  cases hq0 : boolValue fuel env denominator s with
  | error e => intro h; rw [ebindErr] at h; simp at h
  | ok tr =>
    obtain ⟨b, den2, s3⟩ := tr
    intro h
    rw [ebindOk] at h
    dsimp only at h
    have hden2 : InvV den2 := boolValue_pres fuel env denominator s b den2 s3 hq0 hden
    revert h
    by_cases hb : (!b) = true
    · rw [if_pos hb]
      intro h
      simp at h
    · rw [if_neg hb]
      rcases hmw : modUnwrapNum numerator with ⟨nn0, nd0⟩
      have hmw2 := modUnwrapNum_inv numerator hnum
      rw [hmw] at hmw2
      intro h
      dsimp only at h
      rw [ebind_ok_iff] at h
      obtain ⟨pr, hq1, h⟩ := h
      obtain ⟨nn1, nd1⟩ := pr
      dsimp only at h
      obtain ⟨hnn1, hnd1⟩ :=
        modCross_pres fuel den2 nn0 nd0 nn1 nd1 hq1 hden2 hmw2.1 hmw2.2
      exact modFinish_pres fuel env recur hrec numerator den2 nn1 nd1 s3 v s2 h hnn1 hnd1

theorem diceFlattenArg_pres (recur : Req → List Nat → Except Err (Value × List Nat))
    (hrec : ∀ req s v s2, recur req s = .ok (v, s2) → ReqInv req → InvV v)
    (num : Int) (rollable : Value) (s : List Nat) (num2 : Int) (r2 : Value)
    (s2 : List Nat) (h : diceFlattenArg recur num rollable s = .ok (num2, r2, s2))
    (hr : InvV rollable) : InvV r2 := by
  simp only [diceFlattenArg] at h
  revert h
  cases hreq : rollable
  case dice g c cc =>
    cases g with
    | nil =>
      intro h
      simp at h
    | cons g0 gt =>
      intro h
      dsimp only at h
      rw [ebind_ok_iff] at h
      obtain ⟨pr, hq1, h⟩ := h
      obtain ⟨d, s3⟩ := pr
      dsimp only at h
      simp only [epureOk, Except.ok.injEq, Prod.mk.injEq] at h
      obtain ⟨-, h2, -⟩ := h
      subst h2
      exact hrec _ _ _ _ hq1 (invV_dice_elim (hreq ▸ hr) g0 (by simp))
  all_goals
    (intro h
     dsimp only at h
     simp only [epureOk, Except.ok.injEq, Prod.mk.injEq] at h
     obtain ⟨-, h2, -⟩ := h
     subst h2
     exact hreq ▸ hr)

theorem diceFinish_pres (recur : Req → List Nat → Except Err (Value × List Nat))
    (hrec : ∀ req s v s2, recur req s = .ok (v, s2) → ReqInv req → InvV v)
    (conv : Nat) (num : Int) (rollable : Value) (s : List Nat) (v : Value)
    (s2 : List Nat) (h : diceFinish recur conv num rollable s = .ok (v, s2))
    (hr : InvV rollable) : InvV v := by
  simp only [diceFinish] at h
  revert h
  by_cases hn : (num == 1) = true
  · rw [if_pos hn]
    intro h
    exact hrec _ _ _ _ h hr
  · rw [if_neg hn]
    cases hq1 : (List.range num.toNat).foldlM (diceCopyStep recur rollable)
        (([] : List Value), s) with
    | error e => intro h; rw [ebindErr] at h; simp at h
    | ok tr =>
      obtain ⟨copies, s3⟩ := tr
      intro h
      rw [ebindOk] at h
      dsimp only at h
      simp only [Except.ok.injEq, Prod.mk.injEq] at h
      obtain ⟨h1, -⟩ := h
      subst h1
      refine .dice _ _ _ ?_
      exact foldlM_inv (fun (acc : List Value × List Nat) => ∀ x ∈ acc.1, InvV x)
        (fun _ => True) _ (List.range num.toNat) _ _ hq1 (fun _ _ => trivial)
        (fun b a b2 hP _ hstep => copyOneStep_pres recur hrec b rollable b2 hstep hP hr)
        (by simp)

theorem diceBody_pres (fuel : Nat) (env : Env)
    (recur : Req → List Nat → Except Err (Value × List Nat))
    (hrec : ∀ req s v s2, recur req s = .ok (v, s2) → ReqInv req → InvV v)
    (num : Int) (rollable : Value) (conv : Nat) (s : List Nat) (v : Value)
    (s2 : List Nat) (h : diceBody fuel env recur num rollable conv s = .ok (v, s2))
    (hr : InvV rollable) : InvV v := by
  simp only [diceBody] at h
  revert h
  by_cases hn : num < 1
  · rw [if_pos hn]
    intro h
    simp at h
  · rw [if_neg hn]
    intro h
    rw [ebind_ok_iff] at h
    obtain ⟨pr, hq1, h⟩ := h
    obtain ⟨num2, r2, s3⟩ := pr
    dsimp only at h
    exact diceFinish_pres recur hrec conv num2 r2 s3 v s2 h
      (diceFlattenArg_pres recur hrec num rollable s num2 r2 s3 hq1 hr)

theorem copyBody_pres (fuel : Nat) (env : Env)
    (recur : Req → List Nat → Except Err (Value × List Nat))
    (hrec : ∀ req s v s2, recur req s = .ok (v, s2) → ReqInv req → InvV v)
    (v : Value) (s : List Nat) (v2 : Value) (s2 : List Nat)
    (h : copyBody fuel env recur v s = .ok (v2, s2)) (hv : InvV v) : InvV v2 := by
  simp only [copyBody] at h
  revert h
  cases hv with
  | die sd c cc =>
    intro h
    rw [ebind_ok_iff] at h
    obtain ⟨d, hq1, h⟩ := h
    simp only [Except.ok.injEq, Prod.mk.injEq] at h
    obtain ⟨h1, -⟩ := h
    subst h1
    exact dieNew_inv _ _ _ hq1
  | dice g c cc hg =>
    cases g with
    | nil =>
      intro h
      simp at h
    | cons g0 gt =>
      intro h
      dsimp only at h
      rw [ebind_ok_iff] at h
      obtain ⟨pr, hq1, h⟩ := h
      obtain ⟨d0, s3⟩ := pr
      dsimp only at h
      rw [ebind_ok_iff] at h
      obtain ⟨pr2, hq2, h⟩ := h
      obtain ⟨d1, s4⟩ := pr2
      dsimp only at h
      exact hrec _ _ _ _ h (hrec _ _ _ _ hq2 (hrec _ _ _ _ hq1 (hg g0 (by simp))))
  | adder g sc cc hlen hg =>
    intro h
    rw [ebind_ok_iff] at h
    obtain ⟨pr, hq1, h⟩ := h
    obtain ⟨copies, s3⟩ := pr
    dsimp only at h
    refine hrec _ _ _ _ h ?_
    exact foldlM_inv (fun (acc : List Value × List Nat) => ∀ x ∈ acc.1, InvV x)
      (fun e => InvV e) _ g _ _ hq1 hg
      (fun b a b2 hP hQ hstep => copyOneStep_pres recur hrec b a b2 hstep hP hQ)
      (by simp)
  | multiplier g sc cc hg =>
    intro h
    rw [ebind_ok_iff] at h
    obtain ⟨pr, hq1, h⟩ := h
    obtain ⟨copies, s3⟩ := pr
    dsimp only at h
    rw [ebind_ok_iff] at h
    obtain ⟨m, hq2, h⟩ := h
    simp only [Except.ok.injEq, Prod.mk.injEq] at h
    obtain ⟨h1, -⟩ := h
    subst h1
    refine multiplierNew_pres fuel copies sc m hq2 ?_
    exact foldlM_inv (fun (acc : List Value × List Nat) => ∀ x ∈ acc.1, InvV x)
      (fun e => InvV e) _ g _ _ hq1 hg
      (fun b a b2 hP hQ hstep => copyOneStep_pres recur hrec b a b2 hstep hP hQ)
      (by simp)
  | trueDivider nu de cc h1 h2 =>
    intro h
    rw [ebind_ok_iff] at h
    obtain ⟨pr, hq1, h⟩ := h
    obtain ⟨n2, s3⟩ := pr
    dsimp only at h
    rw [ebind_ok_iff] at h
    obtain ⟨pr2, hq2, h⟩ := h
    obtain ⟨d2, s4⟩ := pr2
    dsimp only at h
    exact trueDividerNew_pres fuel env n2 d2 s4 v2 s2 h
      (copyOperand_pres recur hrec nu s n2 s3 hq1 h1)
      (copyOperand_pres recur hrec de s3 d2 s4 hq2 h2)
  | modulus nu de cc h1 h2 =>
    intro h
    rw [ebind_ok_iff] at h
    obtain ⟨pr, hq1, h⟩ := h
    obtain ⟨n2, s3⟩ := pr
    dsimp only at h
    rw [ebind_ok_iff] at h
    obtain ⟨pr2, hq2, h⟩ := h
    obtain ⟨d2, s4⟩ := pr2
    dsimp only at h
    exact hrec _ _ _ _ h ⟨copyOperand_pres recur hrec nu s n2 s3 hq1 h1,
      copyOperand_pres recur hrec de s3 d2 s4 hq2 h2⟩
  | roundNode e nd cc h1 =>
    intro h
    rw [ebind_ok_iff] at h
    obtain ⟨pr, hq1, h⟩ := h
    obtain ⟨e2, s3⟩ := pr
    dsimp only at h
    rw [ebind_ok_iff] at h
    obtain ⟨r, hq2, h⟩ := h
    exact absurd hq2 (roundCall_some_ne e2 nd r)
  | lit q =>
    intro h
    simp at h
  | pynoneI =>
    intro h
    simp at h

theorem runReqStep_pres (fuel : Nat) (env : Env)
    (recur : Req → List Nat → Except Err (Value × List Nat))
    (hrec : ∀ req s v s2, recur req s = .ok (v, s2) → ReqInv req → InvV v)
    (req : Req) (s : List Nat) (v : Value) (s2 : List Nat)
    (h : runReqStep fuel env recur req s = .ok (v, s2)) (hreq : ReqInv req) :
    InvV v := by
  cases req with
  | mkAdder args scalar => exact adderBody_pres fuel env recur hrec args scalar s v s2 h hreq
  | mkModulus nu de => exact modBody_pres fuel env recur hrec nu de s v s2 h hreq.1 hreq.2
  | mkDice n r c => exact diceBody_pres fuel env recur hrec n r c s v s2 h hreq
  | mkCopy x => exact copyBody_pres fuel env recur hrec x s v s2 h hreq

theorem runReq_pres : ∀ (fuel : Nat) (env : Env) (req : Req) (s : List Nat)
    (v : Value) (s2 : List Nat), runReq fuel env req s = .ok (v, s2) →
    ReqInv req → InvV v := by
  intro fuel
  induction fuel with
  | zero =>
    intro env req s v s2 h
    simp [runReq] at h
  | succ fuel ih =>
    intro env req s v s2 h hreq
    exact runReqStep_pres fuel env (runReq fuel env)
      (fun r s v s2 hh hr => ih env r s v s2 hh hr) req s v s2 h hreq

/-- C6: an `DiceAdder` node with exactly one term and zero scalar never
exists.  Any value returned by `DiceAdder.__new__` (via `adderNew`) from
well-formed arguments satisfies the structural invariant `InvV`, whose
`adder` case forbids a group of length one together with a zero scalar; in
particular the returned value itself is never such a degenerate node, because
the final branch of `DiceAdder.__new__` returns the lone term directly. -/
theorem C6_no_degenerate_adder (fuel : Nat) (env : Env) (args : List Value)
    (scalar : Q) (s : List Nat) (v : Value) (s2 : List Nat)
    (h : adderNew fuel env args scalar s = .ok (v, s2))
    (hargs : ∀ x ∈ args, InvV x) :
    InvV v ∧ ∀ g sc cc, v = .adder g sc cc →
      ¬(g.length = 1 ∧ qIsZero sc = true) := by
  have hv : InvV v := runReq_pres fuel env (.mkAdder args scalar) s v s2 h hargs
  refine ⟨hv, ?_⟩
  intro g sc cc hveq
  subst hveq
  cases hv with
  | adder _ _ _ hlen _ => exact hlen

theorem C6_no_degenerate_adder_witness :
    InvV (Value.adder [Value.die 6 0 none] (ofInt 3) none) ∧
      ∀ g sc cc, Value.adder [Value.die 6 0 none] (ofInt 3) none = .adder g sc cc →
        ¬(g.length = 1 ∧ qIsZero sc = true) :=
  C6_no_degenerate_adder 30 defaultEnv [Value.die 6 0 none, Value.lit (ofInt 3)]
    (ofInt 0) [] (Value.adder [Value.die 6 0 none] (ofInt 3) none) [] (by rfl)
    (by
      intro x hx
      simp only [List.mem_cons, List.mem_singleton] at hx
      rcases hx with rfl | rfl | hx
      · exact .die _ _ _
      · exact .lit _
      · cases hx)

/-- C1: the die-set merge of `DiceAdder.__new__` is broken.  Two equal dice
are merged only when the set-insertion equality check — which rolls both
dice — happens to produce equal values.  With entropy `[0, 1]` the two
`Die(6)` operands roll `1` and `2`, the set keeps both representatives, each
is counted against the whole bucket by the roll-based `count`, and the result
is a two-term `DiceAdder` holding two `Dice(2, Die(6))` groups — four dice in
total — instead of the claimed single `Dice(2, Die(6))`.  Only when the two
equality-check rolls coincide (entropy `[0, 0]`) does the claimed merge
happen. -/
theorem C1_die_merge_depends_on_rolls :
    adderNew 30 defaultEnv [.die 6 0 none, .die 6 0 none] (ofInt 0) [0, 1]
      = .ok (.adder [.dice [.die 6 0 none, .die 6 0 none] 0 none,
                     .dice [.die 6 0 none, .die 6 0 none] 0 none] (ofInt 0) none, []) ∧
    adderNew 30 defaultEnv [.die 6 0 none, .die 6 0 none] (ofInt 0) [0, 0]
      = .ok (.dice [.die 6 0 none, .die 6 0 none] 0 none, []) :=
  ⟨rfl, rfl⟩

theorem C3_die20_mod4_witness :
    (modulusNew 30 defaultEnv (.die 20 0 none) (.lit (ofInt 4)) [7]
        = .ok (.adder [.die 4 0 none] (ofInt (-1)) none, [7]) ∧
      subConst 30 defaultEnv (.die 4 0 none) (ofInt 1) [7]
        = .ok (.adder [.die 4 0 none] (ofInt (-1)) none, [7])) ∧
    (∃ k : Nat,
      rollValue 2 defaultEnv (.adder [.die 4 0 none] (ofInt (-1)) none) [9]
        = .ok (ofInt k, .adder [.die 4 0 (some (ofInt (1 + k)))] (ofInt (-1))
            (some (ofInt k)), [9].tail)
        ∧ k < 4) ∧
    rollValue 2 defaultEnv (.adder [.die 4 0 none] (ofInt (-1)) none) [2]
      = .ok (ofInt 2, .adder [.die 4 0 (some (ofInt 3))] (ofInt (-1))
          (some (ofInt 2)), []) :=
  ⟨C3_die20_mod4.1 [7], C3_die20_mod4.2.1 0 [9], C3_die20_mod4.2.2 2 (by omega)⟩

/-- C4 (amended): division never fails on a *number* denominator other than
zero — `x / 1` returns `x` unchanged for every non-divider operand `x`, and a
zero number denominator raises `ZeroDivisionError` — but, contrary to the
claim, a `Rollable` denominator *can* fail at construction: its truthiness
test rolls it, and a falsy roll raises `ZeroDivisionError`. -/
theorem C4_divider_contract :
    (∀ (x : Value) (s : List Nat), (∀ nu de c, x ≠ .trueDivider nu de c) →
      trueDividerNew 30 defaultEnv x (.lit (ofInt 1)) s = .ok (x, s)) ∧
    (∀ (x : Value) (s : List Nat),
      trueDividerNew 30 defaultEnv x (.lit (ofInt 0)) s = .error .zeroDivision) ∧
    (∀ (fuel : Nat) (env : Env) (x den : Value) (s : List Nat) (den2 : Value)
      (s2 : List Nat), boolValue fuel env den s = .ok (false, den2, s2) →
      trueDividerNew fuel env x den s = .error .zeroDivision) := by
  refine ⟨?_, ?_, ?_⟩
  · intro x s hx
    cases x <;> first | rfl | exact absurd rfl (hx _ _ _)
  · intro x s
    rfl
  · intro fuel env x den s den2 s2 h
    simp only [trueDividerNew]
    rw [h]
    rfl

theorem C4_divider_contract_witness :
    trueDividerNew 30 defaultEnv (.die 6 0 none) (.lit (ofInt 1)) []
      = .ok (.die 6 0 none, []) ∧
    trueDividerNew 30 defaultEnv (.die 6 0 none) (.lit (ofInt 0)) []
      = .error .zeroDivision ∧
    trueDividerNew 30 defaultEnv (.die 6 0 none)
        (.multiplier [.die 6 0 none] (ofInt 0) none) [3]
      = .error .zeroDivision :=
  ⟨C4_divider_contract.1 (.die 6 0 none) [] (fun nu de c h => by cases h),
   C4_divider_contract.2.1 (.die 6 0 none) [],
   C4_divider_contract.2.2 30 defaultEnv (.die 6 0 none)
     (.multiplier [.die 6 0 none] (ofInt 0) none) [3]
     (.multiplier [.die 6 0 (some (ofInt 4))] (ofInt 0) (some (ofInt 0))) [] rfl⟩

/-- C4 (counterexample to the original claim): constructing
`Die(6) / DiceMultiplier(Die(6), scalar=0)` — a divider whose denominator *is*
a `Rollable` value — raises `ZeroDivisionError` at construction, because the
denominator's truthiness test rolls it and the zero scalar makes the roll
falsy.  The claim said construction with a `Value` denominator never fails. -/
theorem C4_value_denominator_can_fail :
    trueDividerNew 30 defaultEnv (.die 6 0 none)
        (.multiplier [.die 6 0 none] (ofInt 0) none) [0]
      = .error .zeroDivision :=
  rfl

/-- C5 (amended): for a non-multiplier `Rollable` operand `x`, `x * 1`
returns `x` itself — but `x * 0` does **not** collapse to the bare constant
`0`: the zero is folded into the scalar and the result is the node
`DiceMultiplier(x, scalar=0)`, which survives because the collapse condition
requires the scalar to equal `1`. -/
theorem C5_mult_identity_contract (x : Value) (hx1 : isRollable x = true)
    (hx2 : ∀ g sc c, x ≠ .multiplier g sc c) :
    pymul 30 x (.lit (ofInt 1)) = .ok x ∧
    pymul 30 x (.lit (ofInt 0)) = .ok (.multiplier [x] (ofInt 0) none) := by
  cases x <;>
    first
      | exact ⟨rfl, rfl⟩
      | exact Bool.noConfusion hx1
      | exact absurd rfl (hx2 _ _ _)

theorem C5_mult_identity_contract_witness :
    pymul 30 (.die 6 0 none) (.lit (ofInt 1)) = .ok (.die 6 0 none) ∧
    pymul 30 (.die 6 0 none) (.lit (ofInt 0))
      = .ok (.multiplier [.die 6 0 none] (ofInt 0) none) :=
  C5_mult_identity_contract (.die 6 0 none) rfl (fun g sc c h => by cases h)

/-- C5 (counterexample to the original claim): `Die(6) * 0` yields the
`DiceMultiplier([Die(6)], scalar=0)` node, not the bare constant `0`. -/
theorem C5_times_zero_stays_node :
    pymul 30 (.die 6 0 none) (.lit (ofInt 0))
      = .ok (.multiplier [.die 6 0 none] (ofInt 0) none) ∧
    (Value.multiplier [.die 6 0 none] (ofInt 0) none) ≠ .lit (ofInt 0) :=
  ⟨rfl, by simp⟩

/-- C7: `Die.copy()` (src/xdh/_dice.py:256-257) is `Die(self.sides)` — it
drops the convention function, so a die built with a non-default convention
(here tag `5`) copies to a *default*-convention die whose shape identity
(hash) differs from the source's: the duplicate does not preserve shape
identity.  The cache-clearing half of the claim does hold: the copy holds no
cached roll (`last()` on it rolls fresh), while `last()` on the source keeps
returning the stale cache. -/
theorem C7_copy_drops_convention :
    copyValue 30 defaultEnv (.die 6 5 (some (ofInt 3))) [] = .ok (.die 6 0 none, []) ∧
    sameShapeB 30 (.die 6 5 none) (.die 6 0 none) = false ∧
    copyValue 30 defaultEnv (.die 6 0 (some (ofInt 3))) [] = .ok (.die 6 0 none, []) ∧
    lastValue 1 defaultEnv (.die 6 0 none) [9] = .ok (ofInt 4, .die 6 0 (some (ofInt 4)), []) ∧
    lastValue 1 defaultEnv (.die 6 5 (some (ofInt 3))) [9]
      = .ok (ofInt 3, .die 6 5 (some (ofInt 3)), [9]) :=
  ⟨rfl, rfl, rfl, rfl, rfl⟩

/-- C8: `round(x, ndigits)` never succeeds, so `round(round(x, 3), 1)` cannot
collapse to anything.  `Rollable.__round__` calls `DiceRound(self, ndigits)`,
but `DiceRound.__init__` (src/xdh/_dice.py:1667-1669) accepts no `ndigits`
argument, so the outer call raises `TypeError`; and had a `DiceRound` element
been passed, `DiceRound.__new__` reads `element.ndigits`, an attribute the
class does not define (it defines `_ndigits`), raising `AttributeError`.
Only a bare `DiceRound(element)` constructor call succeeds. -/
theorem C8_round_always_raises :
    roundCall (.die 6 0 none) (some 3) = .error .typeError ∧
    roundCall (.roundNode (.die 6 0 none) 3 none) (some 1) = .error .attributeError ∧
    roundCall (.roundNode (.die 6 0 none) 3 none) none = .error .attributeError ∧
    roundCall (.die 6 0 none) none = .ok (.roundNode (.die 6 0 none) 0 none) :=
  ⟨rfl, rfl, rfl, rfl⟩
